import Mathlib

/-!
Verification development for the ADM-HW3 retrieval engines
(`conj_search_engine.py` and `rank_search_engine.py`).

The Python sources are shallowly embedded below.  Numeric TF-IDF weights are
modelled as rationals (`ℚ`); the real-valued cosine similarity that the code
computes with floating-point arithmetic is idealized as a real number in the
theorem statements.  External collaborators that are not part of the
repository's sources (the NLTK tokenizer, the NLTK English stopword list and
the Snowball stemmer) are modelled from the spec where indicated.
-/

/-! ## Text normalization (`preprocess_text`)

`preprocess_text` lowercases the text, removes the regex matches of
`\b0\w*\b`, tokenizes, filters tokens (stopword / punctuation-substring /
non-alphanumeric / length ≤ 2), stems the survivors and joins them with
single spaces.  The stemmer is kept as an explicit function parameter: it is
a fixed external algorithm, not code of this repository. -/

/-- A regex word character (`\w`): alphanumeric or underscore. -/
def wordChar (c : Char) : Bool := c.isAlphanum || c == '_'

/-- Emit a buffered `\w`-run, dropping it when it begins with the digit `0`
(this is the effect of `re.sub(r'\b0\w*\b', '', text)` on a maximal run of
word characters). -/
def flushRun (run : List Char) : List Char :=
  match run with
  | [] => []
  | c :: _ => if c == '0' then [] else run

/-- Worker for `stripZeroWords`: scans the characters, buffering the current
maximal run of word characters in `run`. -/
def stripZeroAux : List Char → List Char → List Char
  | [], run => flushRun run
  | c :: cs, run =>
    if wordChar c then stripZeroAux cs (run ++ [c])
    else flushRun run ++ c :: stripZeroAux cs []

/-- The effect of `re.sub(r'\b0\w*\b', '', text)`: every maximal run of word
characters whose first character is `0` is deleted, everything else is kept
unchanged. -/
def stripZeroWords (l : List Char) : List Char := stripZeroAux l []

/-- Emit a buffered token. -/
def flushTok (run : List Char) : List String :=
  match run with
  | [] => []
  | c :: cs => [String.mk (c :: cs)]

/-- Worker for `tokenize`, buffering the current alphanumeric run. -/
def tokenAux : List Char → List Char → List String
  | [], run => flushTok run
  | c :: cs, run =>
    if c.isAlphanum then tokenAux cs (run ++ [c])
    else if c.isWhitespace then flushTok run ++ tokenAux cs []
    else flushTok run ++ String.mk [c] :: tokenAux cs []

/-- Modelled from the spec: `nltk.tokenize.word_tokenize` is an external
collaborator, modelled per §4.1(c) as "tokenize on word boundaries, splitting
punctuation from words": maximal alphanumeric runs become word tokens, every
other non-whitespace character becomes a single-character token. -/
def tokenize (l : List Char) : List String := tokenAux l []

/-- Modelled from the spec: the fixed English stopword list used by the code
(`nltk.corpus.stopwords.words("english")`) is external data, not code of this
repository.  The entries of the NLTK list containing an apostrophe are
omitted: the modelled tokenizer never produces a token containing an
apostrophe, and such tokens are non-alphanumeric and hence dropped by the
filter regardless of stopword membership. -/
def nltkStopwords : List String :=
  ["i", "me", "my", "myself", "we", "our", "ours", "ourselves", "you",
   "your", "yours", "yourself", "yourselves", "he", "him", "his", "himself",
   "she", "her", "hers", "herself", "it", "its", "itself", "they", "them",
   "their", "theirs", "themselves", "what", "which", "who", "whom", "this",
   "that", "these", "those", "am", "is", "are", "was", "were", "be", "been",
   "being", "have", "has", "had", "having", "do", "does", "did", "doing",
   "a", "an", "the", "and", "but", "if", "or", "because", "as", "until",
   "while", "of", "at", "by", "for", "with", "about", "against", "between",
   "into", "through", "during", "before", "after", "above", "below", "to",
   "from", "up", "down", "in", "out", "on", "off", "over", "under", "again",
   "further", "then", "once", "here", "there", "when", "where", "why",
   "how", "all", "any", "both", "each", "few", "more", "most", "other",
   "some", "such", "no", "nor", "not", "only", "own", "same", "so", "than",
   "too", "very", "s", "t", "can", "will", "just", "don", "should", "now",
   "d", "ll", "m", "o", "re", "ve", "y", "ain", "aren", "couldn", "didn",
   "doesn", "hadn", "hasn", "haven", "isn", "ma", "mightn", "mustn",
   "needn", "shan", "shouldn", "wasn", "weren", "won", "wouldn"]

/-- The characters of Python's `string.punctuation`. -/
def pyPunctChars : List Char :=
  "!\"#$%&\x27()*+,-./:;<=>?@[\\]^_`\x7b|\x7d~".toList

/-- Does `l` start with `s`? -/
def listStartsWith : List Char → List Char → Bool
  | _, [] => true
  | [], _ :: _ => false
  | a :: as, b :: bs => a == b && listStartsWith as bs

/-- Does `l` contain `s` as a contiguous substring?  This models Python's
`in` operator on strings (`word in string.punctuation` is a substring
test). -/
def listHasSub : List Char → List Char → Bool
  | [], s => s.isEmpty
  | a :: t, s => listStartsWith (a :: t) s || listHasSub t s

/-- Python's `str.isalnum`: nonempty and every character alphanumeric
(restricted to the ASCII behavior of `Char.isAlphanum`). -/
def isalnumStr (w : String) : Bool := !w.data.isEmpty && w.data.all Char.isAlphanum

/-- The token filter of `preprocess_text`: keep `word` iff
`word not in stop_words and word not in string.punctuation and
word.isalnum() and len(word) > 2`. -/
def keepToken (w : String) : Bool :=
  !nltkStopwords.contains w && !listHasSub pyPunctChars w.data &&
    isalnumStr w && decide (2 < w.data.length)

/-- The sequence of terms produced by `preprocess_text` before joining:
lowercase, strip `0`-initial word runs, tokenize, filter, stem.  `stem` is
the external Snowball stemmer, kept as a parameter. -/
def preprocessTerms (stem : String → String) (text : String) : List String :=
  ((tokenize (stripZeroWords (text.data.map Char.toLower))).filter keepToken).map stem

/-- Python's `' '.join`. -/
def joinWords : List String → String
  | [] => ""
  | [w] => w
  | w :: v :: ws => w ++ " " ++ joinWords (v :: ws)

/-- The function `preprocess_text` (common to both engine modules): returns the processed
words as a single space-separated string. -/
def preprocess_text (stem : String → String) (text : String) : String :=
  joinWords (preprocessTerms stem text)

/-- Worker for `splitWords`. -/
def splitAux : List Char → List Char → List String
  | [], run => flushTok run
  | c :: cs, run =>
    if c.isWhitespace then flushTok run ++ splitAux cs []
    else splitAux cs (run ++ [c])

/-- Python's `str.split()` with no argument: split on whitespace runs,
dropping empty pieces. -/
def splitWords (s : String) : List String := splitAux s.data []

/-! ## Vocabulary construction (`create_vocabulary`, both variants)

Python computes `sorted(set(words))` and pairs each term with its position.
`sorted` on a duplicate-free list of strings is modelled by an insertion
sort; Python compares strings lexicographically by code point, as Lean's
`String` order does. -/

/-- Lexicographic comparison of character lists by code point (Python's
string comparison). -/
def charsLe : List Char → List Char → Bool
  | [], _ => true
  | _ :: _, [] => false
  | a :: as, b :: bs => a.toNat < b.toNat || (a == b && charsLe as bs)

/-- Python's `<=` on strings: lexicographic by code point. -/
def strLe (a b : String) : Bool := charsLe a.data b.data

/-- Python's `sorted(set(ws))`: duplicates removed, then sorted
lexicographically (on a duplicate-free list every correct sort agrees, so an
insertion sort models Python's stable sort exactly). -/
def sortedDedup (ws : List String) : List String :=
  List.insertionSort (fun a b => strLe a b = true) ws.dedup

/-- The function `create_vocabulary` of `conj_search_engine.py`: join all descriptions,
re-run `preprocess_text`, take the sorted set of words and enumerate it as
`(term_id, term)` rows.  (The CSV output is modelled as the returned
association list.) -/
def create_vocabulary (stem : String → String) (descriptions : List String) :
    List (ℕ × String) :=
  (sortedDedup (splitWords (preprocess_text stem (joinWords descriptions)))).enum

/-- Occurrence count of a word in the processed corpus stream
(`Counter(word_list)[w]`). -/
def wordCount (ws : List String) (w : String) : ℕ := ws.count w

/-- The function `create_vocabulary` of `rank_search_engine.py`: join the corpus, re-run
`preprocess_text`, split into a word list, keep the distinct words whose
occurrence count lies in `[minf, maxf]` (`Counter` iteration yields each
distinct word once), then enumerate the sorted set. -/
def create_vocabulary_rse (stem : String → String) (corpus : List String)
    (minf maxf : ℕ) : List (ℕ × String) :=
  let wordList := splitWords (preprocess_text stem (joinWords corpus))
  let frequentWords :=
    wordList.dedup.filter
      (fun w => decide (minf ≤ wordList.count w) && decide (wordList.count w ≤ maxf))
  (sortedDedup frequentWords).enum

/-! ## Conjunctive search engine (`conj_search_engine.py`)

The vocabulary loaded from `vocabulary.csv` is modelled as an association
list `term ↦ term_id` passed as a parameter; the inverted index maps term
ids to restaurant-id lists. -/

/-- Python's `str.lower()` (ASCII behavior of `Char.toLower`). -/
def lowerString (s : String) : String := String.mk (s.data.map Char.toLower)

/-- Dictionary lookup `vocabulary[term]` guarded by `term in vocabulary`. -/
def lookupTerm (vocab : List (String × ℕ)) (t : String) : Option ℕ :=
  (vocab.find? (fun p => p.1 == t)).map Prod.snd

/-- One step of the index-building loop body: ensure `tid` has an entry and
append `rid` to it unless already present (new dictionary keys are appended
at the end, as in Python). -/
def addPosting (idx : List (ℕ × List ℕ)) (tid rid : ℕ) : List (ℕ × List ℕ) :=
  match idx with
  | [] => [(tid, [rid])]
  | (t, ds) :: rest =>
    if t = tid then (t, if rid ∈ ds then ds else ds ++ [rid]) :: rest
    else (t, ds) :: addPosting rest tid rid

/-- Process one description: for every word of `str(description).lower().split()`
that resolves in the vocabulary, record the restaurant id. -/
def indexDescription (vocab : List (String × ℕ)) (idx : List (ℕ × List ℕ))
    (rid : ℕ) (desc : String) : List (ℕ × List ℕ) :=
  (splitWords (lowerString desc)).foldl
    (fun idx t =>
      match lookupTerm vocab t with
      | some tid => addPosting idx tid rid
      | none => idx) idx

/-- The function `build_inverted_index` of `conj_search_engine.py`. -/
def build_inverted_index (vocab : List (String × ℕ))
    (processed_descriptions : List String) : List (ℕ × List ℕ) :=
  processed_descriptions.enum.foldl
    (fun idx p => indexDescription vocab idx p.1 p.2) []

/-- Dictionary lookup `inverted_index[term_id]` guarded by membership. -/
def lookupPostings (idx : List (ℕ × List ℕ)) (tid : ℕ) : Option (List ℕ) :=
  (idx.find? (fun p => p.1 == tid)).map Prod.snd

/-- Resolution of a query term: it must be in the vocabulary AND its id must
have an entry in the inverted index. -/
def resolveTerm (vocab : List (String × ℕ)) (idx : List (ℕ × List ℕ))
    (t : String) : Option (List ℕ) :=
  match lookupTerm vocab t with
  | some tid => lookupPostings idx tid
  | none => none

/-- The intersection loop of `search_restaurants`: `matching_restaurant_ids`
starts as `None` and is intersected with each resolving term's posting
set. -/
def conjLoop (vocab : List (String × ℕ)) (idx : List (ℕ × List ℕ)) :
    List String → Option (Finset ℕ) → Option (Finset ℕ)
  | [], acc => acc
  | t :: ts, acc =>
    conjLoop vocab idx ts
      (match resolveTerm vocab idx t with
       | some ds =>
         match acc with
         | none => some ds.toFinset
         | some s => some (s ∩ ds.toFinset)
       | none => acc)

/-- The deduplicated normalized query terms
(`set(preprocess_text(query).split())`; the iteration order of a Python set
is irrelevant because intersection is commutative, so a deduplicated list is
used). -/
def queryTerms (stem : String → String) (query : String) : List String :=
  (splitWords (preprocess_text stem query)).dedup

/-- The function `search_restaurants` of `conj_search_engine.py`, as the set of matching
restaurant ids (the returned DataFrame's rows): empty when no term resolves
or when the intersection is empty. -/
def search_restaurants (stem : String → String) (query : String)
    (vocab : List (String × ℕ)) (idx : List (ℕ × List ℕ)) : Finset ℕ :=
  match conjLoop vocab idx (queryTerms stem query) none with
  | none => ∅
  | some s => s

/-! ## Ranked search engine (`rank_search_engine.py`)

TF-IDF weights are rationals.  The matrix is a list of rows (one per
document); `entryAt M d i` is entry `(d, i)`, with absent entries read as
`0`. -/

/-- Entry `(d, i)` of the TF-IDF matrix. -/
def entryAt (M : List (List ℚ)) (d i : ℕ) : ℚ := (M.getD d []).getD i 0

/-- Column `i` of the matrix as a postings list: `(doc_id, weight)` for the
documents with a nonzero entry, in ascending document order
(`term_column.nonzero()` yields row indices in ascending order). -/
def colPostings (M : List (List ℚ)) (i : ℕ) : List (ℕ × ℚ) :=
  M.enum.filterMap
    (fun p => if p.2.getD i 0 ≠ 0 then some (p.1, p.2.getD i 0) else none)

/-- The function `build_inverted_index` of `rank_search_engine.py`: one entry per term of
`terms`, keyed by the term string.  (Duplicate strings in `terms` would be
collapsed by the Python dictionary keeping the last assignment; the theorems
below assume `terms` is duplicate-free, which the vocabulary guarantees.) -/
def build_inverted_index_rse (M : List (List ℚ)) (terms : List String) :
    List (String × List (ℕ × ℚ)) :=
  terms.enum.map (fun p => (p.2, colPostings M p.1))

/-- Dictionary lookup `inverted_index[term]` guarded by `term in inverted_index`. -/
def lookupIdxRse (idx : List (String × List (ℕ × ℚ))) (t : String) :
    Option (List (ℕ × ℚ)) :=
  (idx.find? (fun p => p.1 == t)).map Prod.snd

/-- Lookup in the `doc_scores` dictionary. -/
def scoreOf (sc : List (ℕ × ℚ)) (d : ℕ) : Option ℚ :=
  (sc.find? (fun p => p.1 == d)).map Prod.snd

/-- The update `doc_scores[doc_id] += v`, initializing the entry to `0` first when
absent (new keys are appended at the end, preserving Python dictionary
insertion order). -/
def addScore (sc : List (ℕ × ℚ)) (d : ℕ) (v : ℚ) : List (ℕ × ℚ) :=
  match sc with
  | [] => [(d, v)]
  | (d', v') :: rest =>
    if d' = d then (d', v' + v) :: rest else (d', v') :: addScore rest d v

/-- Walk one postings list, accumulating `query_score * tfidf_doc_score`
per document. -/
def accumPostings (sc : List (ℕ × ℚ)) (qs : ℚ) (ps : List (ℕ × ℚ)) :
    List (ℕ × ℚ) :=
  ps.foldl (fun sc p => addScore sc p.1 (qs * p.2)) sc

/-- The accumulation loop of `rank_restaurants_by_query_similarity`:
`for term_idx, query_score in enumerate(tfidf_query): if query_score > 0:
... if term in inverted_index: walk its postings`.  `i` is the current term
index, `rest` the remaining query weights. -/
def docScoresAux (terms : List String) (idx : List (String × List (ℕ × ℚ))) :
    ℕ → List ℚ → List (ℕ × ℚ) → List (ℕ × ℚ)
  | _, [], sc => sc
  | i, qs :: rest, sc =>
    docScoresAux terms idx (i + 1) rest
      (if 0 < qs then
        match terms.get? i with
        | some t =>
          match lookupIdxRse idx t with
          | some ps => accumPostings sc qs ps
          | none => sc
        | none => sc
       else sc)

/-- The `doc_scores` dictionary after the accumulation loop, in insertion
(first-touch) order. -/
def docScores (q : List ℚ) (terms : List String)
    (idx : List (String × List (ℕ × ℚ))) : List (ℕ × ℚ) :=
  docScoresAux terms idx 0 q []

/-- Sum of squares of a weight row. -/
def rowSumSq (row : List ℚ) : ℚ := (row.map (fun x => x * x)).sum

/-- Squared Euclidean norm of document `d`'s full weight row
(`np.linalg.norm(tfidf_matrix[doc_id].toarray().flatten()) ** 2`). -/
def rowNormSq (M : List (List ℚ)) (d : ℕ) : ℚ := rowSumSq (M.getD d [])

/-- Squared Euclidean norm of the query vector (`np.linalg.norm(tfidf_query) ** 2`). -/
def qNormSq (q : List ℚ) : ℚ := (q.map (fun x => x * x)).sum

/-- The entries of `cosine_similarities`, in `doc_scores` order.  Each entry
carries `(doc_id, dot_product, ‖doc‖₂²)`; the real-valued cosine score the
code stores for the entry is `dot / (√‖query‖₂² * √‖doc‖₂²)`, see
`realScore`. -/
def scoredDocs (M : List (List ℚ)) (q : List ℚ) (terms : List String)
    (idx : List (String × List (ℕ × ℚ))) : List (ℕ × ℚ × ℚ) :=
  (docScores q terms idx).map (fun p => (p.1, p.2, rowNormSq M p.1))

/-- The real cosine score denoted by a `scoredDocs` entry, given the squared
query norm: `dot_product / (query_norm * doc_norm)`. -/
noncomputable def realScore (qns : ℚ) (p : ℕ × ℚ × ℚ) : ℝ :=
  (p.2.1 : ℝ) / (Real.sqrt (qns : ℝ) * Real.sqrt (p.2.2 : ℝ))

/-- A rational sort key that induces the same order as the (irrational) real
cosine score whenever the squared norms are positive:
`sign(dot) * dot² / ‖doc‖₂²` is a strictly monotone image of
`dot / (‖query‖₂ * ‖doc‖₂)` (the common positive factor `‖query‖₂` does not
affect the order).  See `scoreKey_le_iff_realScore_le`. -/
def scoreKey (p : ℚ × ℚ) : ℚ :=
  if p.1 < 0 then -(p.1 * p.1 / p.2) else p.1 * p.1 / p.2

/-- The comparison used to sort `cosine_similarities.items()` by descending
score. -/
def rankLe (a b : ℕ × ℚ × ℚ) : Bool := decide (scoreKey b.2 ≤ scoreKey a.2)

/-- The function `rank_restaurants_by_query_similarity` of `rank_search_engine.py`: sort
the scored documents by descending cosine score with a stable sort (Python's
`sorted` is stable) and keep the first `k`.  Each returned entry denotes the
row `(doc_id, score)` with `score = realScore (qNormSq q) entry`. -/
def rank_restaurants_by_query_similarity (M : List (List ℚ)) (q : List ℚ)
    (terms : List String) (idx : List (String × List (ℕ × ℚ))) (k : ℕ) :
    List (ℕ × ℚ × ℚ) :=
  ((scoredDocs M q terms idx).mergeSort rankLe).take k

/-- The dense dot product of the query weight vector with a document weight
row (the naive computation the sparse walk refines). -/
def denseDot (q row : List ℚ) : ℚ := (List.zipWith (fun a b => a * b) q row).sum

/-- Modelled from the spec (§4.6): the cosine similarity
`cosine(d) = dot(d) / (‖query‖₂ × ‖doc_d‖₂)` between the query weight vector
and document `d`'s full weight row, with the dot product taken over the full
dense vectors.  This is the specification-side definition that the sparse,
index-walking computation of the code is compared against. -/
noncomputable def specCosine (q row : List ℚ) : ℝ :=
  (denseDot q row : ℝ) / (Real.sqrt (qNormSq q : ℝ) * Real.sqrt (rowSumSq row : ℝ))

/-- The dot-product contribution of the query weights `rest` (starting at
term index `i`) to document `d`, exactly as the accumulation loop adds it:
only strictly positive query weights contribute. -/
def tailDot (M : List (List ℚ)) (d : ℕ) : ℕ → List ℚ → ℚ
  | _, [] => 0
  | i, qs :: rest => (if 0 < qs then qs * entryAt M d i else 0) + tailDot M d (i + 1) rest

/-- Whether document `d` is touched by the accumulation loop while it
processes the query weights `rest` starting at term index `i`: some
remaining term has a strictly positive query weight and a nonzero weight in
`d`'s row. -/
def touchedB (M : List (List ℚ)) (d : ℕ) : ℕ → List ℚ → Bool
  | _, [] => false
  | i, qs :: rest =>
    (decide (0 < qs) && decide (entryAt M d i ≠ 0)) || touchedB M d (i + 1) rest

/-- Modelled from the spec: the fixed English Snowball stemmer (§4.1(e))
used by the code is an external library, not code of this repository.  This
models its documented behavior at the two words used in the theorems below —
Snowball's step 1a deletes a final `s` whose stem part contains a vowel not
immediately before that `s`, so `wills ↦ will` and `abs ↦ ab` — and returns
every other word unchanged. -/
def snowballStemAt (w : String) : String :=
  if w = "wills" then "will" else if w = "abs" then "ab" else w

/-- Index of the first occurrence of `x` in a list (0 when absent), used to
express relative order of entries in the ranked result lists. -/
def firstIdx {α : Type} [DecidableEq α] (x : α) : List α → ℕ
  | [] => 0
  | a :: l => if x = a then 0 else firstIdx x l + 1

/-! ## Facts about the code-point comparison and `sortedDedup` -/

lemma charsLe_nil (y : List Char) : charsLe [] y = true := by cases y <;> rfl

lemma charsLe_cons_cons (a b : Char) (as bs : List Char) :
    charsLe (a :: as) (b :: bs) =
      (a.toNat < b.toNat || (a == b && charsLe as bs)) := rfl

lemma char_eq_of_toNat_eq {a b : Char} (h : a.toNat = b.toNat) : a = b :=
  Char.eq_of_val_eq (UInt32.toNat.inj h)

lemma charsLe_total : ∀ x y : List Char, charsLe x y = true ∨ charsLe y x = true
  | [], y => Or.inl (charsLe_nil y)
  | _ :: _, [] => Or.inr (charsLe_nil _)
  | a :: as, b :: bs => by
    rcases Nat.lt_trichotomy a.toNat b.toNat with h | h | h
    · left; simp [charsLe_cons_cons, h]
    · have hab : a = b := char_eq_of_toNat_eq h
      rcases charsLe_total as bs with ih | ih
      · left; simp [charsLe_cons_cons, hab, ih]
      · right; simp [charsLe_cons_cons, hab.symm, ih]
    · right; simp [charsLe_cons_cons, h]

lemma charsLe_trans : ∀ x y z : List Char,
    charsLe x y = true → charsLe y z = true → charsLe x z = true
  | [], _, z, _, _ => charsLe_nil z
  | _ :: _, [], _, hxy, _ => by simp [charsLe] at hxy
  | _ :: _, _ :: _, [], _, hyz => by simp [charsLe] at hyz
  | a :: as, b :: bs, c :: cs, hxy, hyz => by
    rw [charsLe_cons_cons] at hxy hyz ⊢
    simp only [Bool.or_eq_true, Bool.and_eq_true, decide_eq_true_eq, beq_iff_eq] at hxy hyz ⊢
    rcases hxy with h1 | ⟨rfl, h1⟩
    · rcases hyz with h2 | ⟨rfl, _⟩
      · exact Or.inl (Nat.lt_trans h1 h2)
      · exact Or.inl h1
    · rcases hyz with h2 | ⟨rfl, h2⟩
      · exact Or.inl h2
      · exact Or.inr ⟨rfl, charsLe_trans as bs cs h1 h2⟩

lemma charsLe_antisymm : ∀ x y : List Char,
    charsLe x y = true → charsLe y x = true → x = y
  | [], [], _, _ => rfl
  | [], _ :: _, _, hyx => by simp [charsLe] at hyx
  | _ :: _, [], hxy, _ => by simp [charsLe] at hxy
  | a :: as, b :: bs, hxy, hyx => by
    rw [charsLe_cons_cons] at hxy hyx
    simp only [Bool.or_eq_true, Bool.and_eq_true, decide_eq_true_eq, beq_iff_eq] at hxy hyx
    rcases hxy with h1 | ⟨rfl, h1⟩
    · rcases hyx with h2 | ⟨rfl, _⟩
      · exact absurd (Nat.lt_trans h1 h2) (lt_irrefl _)
      · exact absurd h1 (lt_irrefl _)
    · rcases hyx with h2 | ⟨_, h2⟩
      · exact absurd h2 (lt_irrefl _)
      · rw [charsLe_antisymm as bs h1 h2]

lemma strLe_total (a b : String) : strLe a b = true ∨ strLe b a = true :=
  charsLe_total a.data b.data

lemma strLe_trans {a b c : String} (h1 : strLe a b = true) (h2 : strLe b c = true) :
    strLe a c = true :=
  charsLe_trans a.data b.data c.data h1 h2

lemma strLe_antisymm {a b : String} (h1 : strLe a b = true) (h2 : strLe b a = true) :
    a = b := by
  cases a; cases b
  exact congrArg String.mk (charsLe_antisymm _ _ h1 h2)

lemma sortedDedup_sorted (ws : List String) :
    (sortedDedup ws).Pairwise (fun a b => strLe a b = true) := by
  haveI : IsTotal String (fun a b => strLe a b = true) := ⟨strLe_total⟩
  haveI : IsTrans String (fun a b => strLe a b = true) := ⟨fun _ _ _ => strLe_trans⟩
  exact List.sorted_insertionSort _ _

lemma sortedDedup_nodup (ws : List String) : (sortedDedup ws).Nodup :=
  ((List.perm_insertionSort _ _).nodup_iff).mpr (List.nodup_dedup ws)

lemma mem_sortedDedup {w : String} {ws : List String} :
    w ∈ sortedDedup ws ↔ w ∈ ws := by
  rw [sortedDedup, (List.perm_insertionSort _ _).mem_iff, List.mem_dedup]

lemma sortedDedup_strict (ws : List String) :
    (sortedDedup ws).Pairwise (fun a b => strLe a b = true ∧ a ≠ b) :=
  ((sortedDedup_sorted ws).and (sortedDedup_nodup ws)).imp
    (fun h => ⟨h.1, h.2⟩)

/-- Unfolding lemma for `create_vocabulary`. -/
lemma create_vocabulary_def (stem : String → String) (descriptions : List String) :
    create_vocabulary stem descriptions =
      (sortedDedup (splitWords (preprocess_text stem (joinWords descriptions)))).enum := rfl

/-- Unfolding lemma for `create_vocabulary_rse`. -/
lemma create_vocabulary_rse_def (stem : String → String) (corpus : List String)
    (minf maxf : ℕ) :
    create_vocabulary_rse stem corpus minf maxf =
      (sortedDedup ((splitWords (preprocess_text stem (joinWords corpus))).dedup.filter
        (fun w =>
          decide (minf ≤ (splitWords (preprocess_text stem (joinWords corpus))).count w) &&
            decide ((splitWords (preprocess_text stem (joinWords corpus))).count w ≤ maxf)))).enum :=
  rfl

/-- Shape of an enumerated vocabulary table built from any word list. -/
lemma vocab_enum_shape (ws : List String) :
    ((sortedDedup ws).enum.map Prod.fst = List.range (sortedDedup ws).enum.length) ∧
      ((sortedDedup ws).enum.map Prod.snd).Pairwise
        (fun a b => strLe a b = true ∧ a ≠ b) := by
  constructor
  · rw [List.enum_map_fst, List.enum_length]
  · rw [List.enum_map_snd]
    exact sortedDedup_strict ws

/-- C6: both vocabulary builders assign term ids as the contiguous range
`0..N-1` (duplicate-free by construction of `List.range`), listed in strictly
ascending code-point-lexicographic order of the term string; together these
make the `term_id ↔ term` assignment a bijection. -/
theorem vocabulary_ids_contiguous_sorted (stem : String → String)
    (descriptions corpus : List String) (minf maxf : ℕ) :
    ((create_vocabulary stem descriptions).map Prod.fst =
        List.range (create_vocabulary stem descriptions).length ∧
      ((create_vocabulary stem descriptions).map Prod.snd).Pairwise
        (fun a b => strLe a b = true ∧ a ≠ b)) ∧
    ((create_vocabulary_rse stem corpus minf maxf).map Prod.fst =
        List.range (create_vocabulary_rse stem corpus minf maxf).length ∧
      ((create_vocabulary_rse stem corpus minf maxf).map Prod.snd).Pairwise
        (fun a b => strLe a b = true ∧ a ≠ b)) := by
  rw [create_vocabulary_def, create_vocabulary_rse_def]
  exact ⟨vocab_enum_shape _, vocab_enum_shape _⟩

/-- C7: the frequency-filtered vocabulary builder admits exactly the words of
the processed corpus stream whose corpus-wide occurrence count lies in
`[minf, maxf]`: every vocabulary term occurs in the stream, and a word of the
stream is a vocabulary term iff its count is within the bounds. -/
theorem vocabulary_rse_admits_iff (stem : String → String) (corpus : List String)
    (minf maxf : ℕ) (hbound : minf ≤ maxf) :
    (∀ w ∈ (create_vocabulary_rse stem corpus minf maxf).map Prod.snd,
        w ∈ splitWords (preprocess_text stem (joinWords corpus))) ∧
    (∀ w ∈ splitWords (preprocess_text stem (joinWords corpus)),
        (w ∈ (create_vocabulary_rse stem corpus minf maxf).map Prod.snd ↔
          minf ≤ (splitWords (preprocess_text stem (joinWords corpus))).count w ∧
            (splitWords (preprocess_text stem (joinWords corpus))).count w ≤ maxf)) := by
  have hmem : ∀ w, w ∈ (create_vocabulary_rse stem corpus minf maxf).map Prod.snd ↔
      (w ∈ splitWords (preprocess_text stem (joinWords corpus)) ∧
        minf ≤ (splitWords (preprocess_text stem (joinWords corpus))).count w ∧
          (splitWords (preprocess_text stem (joinWords corpus))).count w ≤ maxf) := by
    intro w
    rw [create_vocabulary_rse_def, List.enum_map_snd, mem_sortedDedup, List.mem_filter,
      List.mem_dedup]
    simp [and_assoc]
  exact ⟨fun w hw => ((hmem w).mp hw).1, fun w _ => by rw [hmem w]; tauto⟩

/-! ## Conjunctive search: characterizing the intersection loop -/

lemma conjLoop_eq_none (vocab : List (String × ℕ)) (idx : List (ℕ × List ℕ)) :
    ∀ (ts : List String) (acc : Option (Finset ℕ)),
      conjLoop vocab idx ts acc = none ↔
        acc = none ∧ ts.filterMap (resolveTerm vocab idx) = [] := by
  intro ts
  induction ts with
  | nil => intro acc; simp [conjLoop]
  | cons t ts ih =>
    intro acc
    rw [conjLoop]
    cases hf : resolveTerm vocab idx t with
    | none => rw [ih]; simp [List.filterMap_cons, hf]
    | some ds =>
      cases acc with
      | none => rw [ih]; simp [List.filterMap_cons, hf]
      | some s => rw [ih]; simp [List.filterMap_cons, hf]

lemma conjLoop_mem (vocab : List (String × ℕ)) (idx : List (ℕ × List ℕ)) :
    ∀ (ts : List String) (acc : Option (Finset ℕ)) (d : ℕ),
      (∃ s, conjLoop vocab idx ts acc = some s ∧ d ∈ s) ↔
        ((match acc with
          | some s => d ∈ s
          | none => ts.filterMap (resolveTerm vocab idx) ≠ []) ∧
          ∀ ds ∈ ts.filterMap (resolveTerm vocab idx), d ∈ ds) := by
  intro ts
  induction ts with
  | nil =>
    intro acc d
    cases acc with
    | none => simp [conjLoop]
    | some s => simp [conjLoop]
  | cons t ts ih =>
    intro acc d
    rw [conjLoop]
    cases hf : resolveTerm vocab idx t with
    | none =>
      cases acc with
      | none => rw [ih]; simp [List.filterMap_cons, hf]
      | some s => rw [ih]; simp [List.filterMap_cons, hf]
    | some ds =>
      cases acc with
      | none =>
        rw [ih]
        simp only [List.filterMap_cons, hf, List.mem_cons, ne_eq, List.mem_toFinset,
          List.forall_mem_cons, forall_eq_or_imp, List.cons_ne_nil, not_false_iff,
          true_and]
      | some s =>
        rw [ih]
        simp only [List.filterMap_cons, hf, Finset.mem_inter, List.mem_toFinset,
          List.mem_cons, forall_eq_or_imp, List.forall_mem_cons]
        tauto

/-- C1: boolean conjunctive search returns exactly the intersection of the
posting document-id lists of the deduplicated, normalized query terms that
resolve both to a vocabulary entry and to an inverted-index entry; when no
term resolves (in particular when all terms are absent) the result is the
empty set, returned as an ordinary value. -/
theorem conj_search_is_intersection (stem : String → String) (query : String)
    (vocab : List (String × ℕ)) (idx : List (ℕ × List ℕ)) :
    ((queryTerms stem query).filterMap (resolveTerm vocab idx) = [] →
        search_restaurants stem query vocab idx = ∅) ∧
      ∀ d, d ∈ search_restaurants stem query vocab idx ↔
        ((queryTerms stem query).filterMap (resolveTerm vocab idx) ≠ [] ∧
          ∀ ds ∈ (queryTerms stem query).filterMap (resolveTerm vocab idx), d ∈ ds) := by
  cases hc : conjLoop vocab idx (queryTerms stem query) none with
  | none =>
    have hR := (conjLoop_eq_none vocab idx (queryTerms stem query) none).mp hc
    constructor
    · intro _
      simp [search_restaurants, hc]
    · intro d
      simp only [search_restaurants, hc]
      simp [hR.2]
  | some s =>
    have hR : ¬((queryTerms stem query).filterMap (resolveTerm vocab idx) = []) := by
      intro h0
      have : conjLoop vocab idx (queryTerms stem query) none = none :=
        (conjLoop_eq_none vocab idx (queryTerms stem query) none).mpr ⟨rfl, h0⟩
      rw [this] at hc
      exact Option.noConfusion hc
    constructor
    · intro h0; exact absurd h0 hR
    · intro d
      have hmem := conjLoop_mem vocab idx (queryTerms stem query) none d
      rw [hc] at hmem
      simp only [search_restaurants, hc]
      constructor
      · intro hd
        exact hmem.mp ⟨s, rfl, hd⟩
      · intro h
        obtain ⟨s', hs', hd⟩ := hmem.mpr h
        cases hs'
        exact hd

/-! ## Inverted-index invariants (`build_inverted_index`, both variants) -/

lemma addPosting_entries {idx : List (ℕ × List ℕ)} {tid rid : ℕ}
    (h : ∀ p ∈ idx, p.2.Pairwise (· < ·) ∧ p.2 ≠ [] ∧ ∀ r ∈ p.2, r ≤ rid) :
    ∀ p ∈ addPosting idx tid rid,
      p.2.Pairwise (· < ·) ∧ p.2 ≠ [] ∧ ∀ r ∈ p.2, r ≤ rid := by
  induction idx with
  | nil =>
    intro p hp
    simp only [addPosting, List.mem_singleton] at hp
    subst hp
    simp
  | cons q rest ih =>
    obtain ⟨t, ds⟩ := q
    intro p hp
    rw [addPosting] at hp
    by_cases hteq : t = tid
    · rw [if_pos hteq] at hp
      rcases List.mem_cons.mp hp with hp | hp
      · subst hp
        by_cases hrin : rid ∈ ds
        · simpa [hrin] using h (t, ds) (List.mem_cons_self _ _)
        · have hd := h (t, ds) (List.mem_cons_self _ _)
          refine ⟨?_, ?_, ?_⟩
          · simp only [hrin, if_neg, ite_false]
            rw [List.pairwise_append]
            refine ⟨hd.1, List.pairwise_singleton _ _, ?_⟩
            intro a ha b hb
            rw [List.mem_singleton] at hb
            subst hb
            exact lt_of_le_of_ne (hd.2.2 a ha) (fun hEq => hrin (hEq ▸ ha))
          · simp [hrin]
          · intro r hr
            simp only [hrin, ite_false, List.mem_append, List.mem_singleton] at hr
            rcases hr with hr | hr
            · exact hd.2.2 r hr
            · exact le_of_eq hr
      · exact h p (List.mem_cons_of_mem _ hp)
    · rw [if_neg hteq] at hp
      rcases List.mem_cons.mp hp with hp | hp
      · subst hp
        exact h (t, ds) (List.mem_cons_self _ _)
      · exact ih (fun q hq => h q (List.mem_cons_of_mem _ hq)) p hp

lemma foldWords_entries (vocab : List (String × ℕ)) (rid : ℕ) :
    ∀ (ws : List String) (idx : List (ℕ × List ℕ)),
      (∀ p ∈ idx, p.2.Pairwise (· < ·) ∧ p.2 ≠ [] ∧ ∀ r ∈ p.2, r ≤ rid) →
      ∀ p ∈ ws.foldl
          (fun idx t =>
            match lookupTerm vocab t with
            | some tid => addPosting idx tid rid
            | none => idx) idx,
        p.2.Pairwise (· < ·) ∧ p.2 ≠ [] ∧ ∀ r ∈ p.2, r ≤ rid := by
  intro ws
  induction ws with
  | nil => intro idx h p hp; exact h p hp
  | cons w ws ih =>
    intro idx h
    rw [List.foldl_cons]
    cases hl : lookupTerm vocab w with
    | none => simpa [hl] using ih idx h
    | some tid => simpa [hl] using ih (addPosting idx tid rid) (addPosting_entries h)

lemma indexDescription_entries {vocab : List (String × ℕ)}
    {idx : List (ℕ × List ℕ)} {rid : ℕ} {desc : String}
    (h : ∀ p ∈ idx, p.2.Pairwise (· < ·) ∧ p.2 ≠ [] ∧ ∀ r ∈ p.2, r ≤ rid) :
    ∀ p ∈ indexDescription vocab idx rid desc,
      p.2.Pairwise (· < ·) ∧ p.2 ≠ [] ∧ ∀ r ∈ p.2, r ≤ rid :=
  foldWords_entries vocab rid (splitWords (lowerString desc)) idx h

lemma build_fold_entries (vocab : List (String × ℕ)) :
    ∀ (descs : List String) (i : ℕ) (idx : List (ℕ × List ℕ)),
      (∀ p ∈ idx, p.2.Pairwise (· < ·) ∧ p.2 ≠ [] ∧ ∀ r ∈ p.2, r < i) →
      ∀ p ∈ (List.enumFrom i descs).foldl
          (fun idx pr => indexDescription vocab idx pr.1 pr.2) idx,
        p.2.Pairwise (· < ·) ∧ p.2 ≠ [] := by
  intro descs
  induction descs with
  | nil => intro i idx h p hp; exact ⟨(h p hp).1, (h p hp).2.1⟩
  | cons d ds ih =>
    intro i idx h
    rw [List.enumFrom_cons, List.foldl_cons]
    refine ih (i + 1) (indexDescription vocab idx i d) ?_
    intro p hp
    have hstep := indexDescription_entries
      (fun q hq => ⟨(h q hq).1, (h q hq).2.1, fun r hr => le_of_lt ((h q hq).2.2 r hr)⟩)
      p hp
    exact ⟨hstep.1, hstep.2.1, fun r hr => Nat.lt_succ_of_le (hstep.2.2 r hr)⟩

lemma addPosting_keys {P : ℕ → Prop} {idx : List (ℕ × List ℕ)} {tid rid : ℕ}
    (h : ∀ p ∈ idx, P p.1) (ht : P tid) :
    ∀ p ∈ addPosting idx tid rid, P p.1 := by
  induction idx with
  | nil =>
    intro p hp
    simp only [addPosting, List.mem_singleton] at hp
    subst hp
    exact ht
  | cons q rest ih =>
    obtain ⟨t, ds⟩ := q
    intro p hp
    rw [addPosting] at hp
    by_cases hteq : t = tid
    · rw [if_pos hteq] at hp
      rcases List.mem_cons.mp hp with hp | hp
      · subst hp; exact h (t, ds) (List.mem_cons_self _ _)
      · exact h p (List.mem_cons_of_mem _ hp)
    · rw [if_neg hteq] at hp
      rcases List.mem_cons.mp hp with hp | hp
      · subst hp; exact h (t, ds) (List.mem_cons_self _ _)
      · exact ih (fun q hq => h q (List.mem_cons_of_mem _ hq)) p hp

lemma foldWords_keys {P : ℕ → Prop} (vocab : List (String × ℕ)) (rid : ℕ) :
    ∀ (ws : List String) (idx : List (ℕ × List ℕ)),
      (∀ p ∈ idx, P p.1) →
      (∀ w ∈ ws, ∀ tid, lookupTerm vocab w = some tid → P tid) →
      ∀ p ∈ ws.foldl
          (fun idx t =>
            match lookupTerm vocab t with
            | some tid => addPosting idx tid rid
            | none => idx) idx,
        P p.1 := by
  intro ws
  induction ws with
  | nil => intro idx h _ p hp; exact h p hp
  | cons w ws ih =>
    intro idx h hws
    rw [List.foldl_cons]
    cases hl : lookupTerm vocab w with
    | none =>
      simpa [hl] using ih idx h (fun w' hw' => hws w' (List.mem_cons_of_mem _ hw'))
    | some tid =>
      have ht : P tid := hws w (List.mem_cons_self _ _) tid hl
      simpa [hl] using
        ih (addPosting idx tid rid) (addPosting_keys h ht)
          (fun w' hw' => hws w' (List.mem_cons_of_mem _ hw'))

lemma build_fold_keys {P : ℕ → Prop} (vocab : List (String × ℕ)) :
    ∀ (pairs : List (ℕ × String)) (idx : List (ℕ × List ℕ)),
      (∀ p ∈ idx, P p.1) →
      (∀ pr ∈ pairs, ∀ w ∈ splitWords (lowerString pr.2),
        ∀ tid, lookupTerm vocab w = some tid → P tid) →
      ∀ p ∈ pairs.foldl (fun idx pr => indexDescription vocab idx pr.1 pr.2) idx,
        P p.1 := by
  intro pairs
  induction pairs with
  | nil => intro idx h _ p hp; exact h p hp
  | cons pr prs ih =>
    intro idx h hprs
    rw [List.foldl_cons]
    refine ih (indexDescription vocab idx pr.1 pr.2) ?_
      (fun pr' hpr' => hprs pr' (List.mem_cons_of_mem _ hpr'))
    exact foldWords_keys vocab pr.1 (splitWords (lowerString pr.2)) idx h
      (hprs pr (List.mem_cons_self _ _))

lemma filterMap_ite_eq_map_filter {α β : Type} (pred : α → Bool) (g : α → β) :
    ∀ l : List α,
      l.filterMap (fun x => if pred x then some (g x) else none) =
        (l.filter pred).map g := by
  intro l
  induction l with
  | nil => rfl
  | cons a l ih =>
    rw [List.filterMap_cons, List.filter_cons]
    by_cases h : pred a
    · rw [if_pos h, if_pos h, List.map_cons, ih]
    · rw [if_neg h, if_neg h, ih]

lemma colPostings_eq_map_filter (M : List (List ℚ)) (i : ℕ) :
    colPostings M i =
      (M.enum.filter (fun p => decide (p.2.getD i 0 ≠ 0))).map
        (fun p => (p.1, p.2.getD i 0)) := by
  rw [colPostings, ← filterMap_ite_eq_map_filter]
  congr 1
  funext p
  by_cases h : p.2.getD i 0 ≠ 0
  · rw [if_pos h, if_pos (by simpa using h)]
  · rw [if_neg h, if_neg (by simpa using h)]

lemma colPostings_fst_pairwise (M : List (List ℚ)) (i : ℕ) :
    ((colPostings M i).map Prod.fst).Pairwise (· < ·) := by
  rw [colPostings_eq_map_filter, List.map_map]
  have heq : (Prod.fst ∘ fun p : ℕ × List ℚ => (p.1, p.2.getD i 0)) = Prod.fst := by
    funext p; rfl
  rw [heq]
  have hsub : ((M.enum.filter (fun p => decide (p.2.getD i 0 ≠ 0))).map Prod.fst).Sublist
      (M.enum.map Prod.fst) :=
    List.Sublist.map _ (List.filter_sublist _)
  rw [List.enum_map_fst] at hsub
  exact List.Pairwise.sublist hsub (List.pairwise_lt_range _)

lemma mem_colPostings {M : List (List ℚ)} {i d : ℕ} {w : ℚ} :
    (d, w) ∈ colPostings M i ↔ entryAt M d i ≠ 0 ∧ w = entryAt M d i := by
  rw [colPostings_eq_map_filter]
  constructor
  · intro h
    obtain ⟨p, hp, hpe⟩ := List.mem_map.mp h
    obtain ⟨hpm, hpred⟩ := List.mem_filter.mp hp
    obtain ⟨h1, h2⟩ := Prod.mk.injEq .. ▸ hpe
    have hget := List.mem_enum_iff_getElem?.mp hpm
    have hrow : M.getD p.1 [] = p.2 := by
      rw [List.getD_eq_getElem?_getD, hget]; rfl
    subst h1
    rw [entryAt, hrow]
    exact ⟨by simpa using hpred, h2.symm⟩
  · rintro ⟨hne, rfl⟩
    have hd : d < M.length := by
      by_contra hge
      have : M.getD d [] = [] := by
        rw [List.getD_eq_getElem?_getD, List.getElem?_eq_none (le_of_not_lt hge)]
        rfl
      rw [entryAt, this] at hne
      simp at hne
    refine List.mem_map.mpr ⟨(d, M.getD d []), List.mem_filter.mpr ⟨?_, ?_⟩, rfl⟩
    · refine List.mem_enum_iff_getElem?.mpr ?_
      rw [List.getD_eq_getElem?_getD, List.getElem?_eq_getElem hd]
      rfl
    · simpa [entryAt] using hne

lemma build_rse_fst (M : List (List ℚ)) (terms : List String) :
    (build_inverted_index_rse M terms).map Prod.fst = terms := by
  rw [build_inverted_index_rse, List.map_map]
  have heq : (Prod.fst ∘ fun p : ℕ × String => (p.2, colPostings M p.1)) =
      Prod.snd := by
    funext p; rfl
  rw [heq, List.enum_map_snd]

/-- C4 counterexample: the TF-IDF-side `build_inverted_index` creates an
entry for a term of the input term list even when that term has no nonzero
weight in any document (empty postings list): with a single document whose
only weight is `0`, term `"a"` still receives an index entry. -/
theorem rank_index_keeps_zero_weight_terms :
    build_inverted_index_rse [[(0 : ℚ)]] ["a"] = [("a", [])] ∧
      entryAt [[(0 : ℚ)]] 0 0 = 0 := by
  constructor
  · rfl
  · rfl

/-- C4 (amended): postings lists of both builders carry strictly ascending,
duplicate-free document ids.  The conjunctive builder creates an entry only
for term ids with at least one occurrence in the descriptions (and its
postings lists are never empty); the TF-IDF builder instead creates one
entry for EVERY term of its input term list — possibly with an empty
postings list when the term's column is all zeros — and the entry for the
term at position `i` holds `(d, w)` exactly when document `d`'s weight for
term `i` is nonzero and `w` is that matrix entry. -/
theorem inverted_index_postings_ascending (vocab : List (String × ℕ))
    (descs : List String) (M : List (List ℚ)) (terms : List String) :
    (∀ p ∈ build_inverted_index vocab descs,
        p.2.Pairwise (· < ·) ∧ p.2 ≠ [] ∧
          ∃ pr ∈ descs.enum, ∃ w ∈ splitWords (lowerString pr.2),
            lookupTerm vocab w = some p.1) ∧
      ((build_inverted_index_rse M terms).map Prod.fst = terms ∧
        ∀ p ∈ build_inverted_index_rse M terms,
          (p.2.map Prod.fst).Pairwise (· < ·) ∧
            ∃ i, terms.get? i = some p.1 ∧
              ∀ d w, ((d, w) ∈ p.2 ↔
                entryAt M d i ≠ 0 ∧ w = entryAt M d i)) := by
  refine ⟨?_, build_rse_fst M terms, ?_⟩
  · intro p hp
    have hshape := build_fold_entries vocab descs 0 []
      (by intro q hq; exact absurd hq (List.not_mem_nil q)) p hp
    have hkeys := build_fold_keys
      (P := fun tid => ∃ pr ∈ descs.enum, ∃ w ∈ splitWords (lowerString pr.2),
        lookupTerm vocab w = some tid)
      vocab descs.enum []
      (by intro q hq; exact absurd hq (List.not_mem_nil q))
      (by
        intro pr hpr w hw tid hl
        exact ⟨pr, hpr, w, hw, hl⟩)
      p hp
    exact ⟨hshape.1, hshape.2, hkeys⟩
  · intro p hp
    obtain ⟨q, hq, rfl⟩ := List.mem_map.mp hp
    refine ⟨colPostings_fst_pairwise M q.1, q.1, ?_, ?_⟩
    · rw [List.get?_eq_getElem?]
      exact List.mem_enum_iff_getElem?.mp hq
    · intro d w
      exact mem_colPostings

/-- C4 witness: the amended invariant instantiated on a concrete vocabulary,
description list, matrix and term list. -/
theorem inverted_index_postings_ascending_witness :
    (∀ p ∈ build_inverted_index [("pasta", 0), ("pizza", 1)] ["pasta pizza", "pizza pasta"],
        p.2.Pairwise (· < ·) ∧ p.2 ≠ [] ∧
          ∃ pr ∈ (["pasta pizza", "pizza pasta"] : List String).enum,
            ∃ w ∈ splitWords (lowerString pr.2),
              lookupTerm [("pasta", 0), ("pizza", 1)] w = some p.1) ∧
      ((build_inverted_index_rse [[1, 0], [0, 2]] ["aa", "bb"]).map Prod.fst =
          ["aa", "bb"] ∧
        ∀ p ∈ build_inverted_index_rse [[(1 : ℚ), 0], [0, 2]] ["aa", "bb"],
          (p.2.map Prod.fst).Pairwise (· < ·) ∧
            ∃ i, (["aa", "bb"] : List String).get? i = some p.1 ∧
              ∀ d w, ((d, w) ∈ p.2 ↔
                entryAt [[(1 : ℚ), 0], [0, 2]] d i ≠ 0 ∧
                  w = entryAt [[(1 : ℚ), 0], [0, 2]] d i)) :=
  inverted_index_postings_ascending [("pasta", 0), ("pizza", 1)]
    ["pasta pizza", "pizza pasta"] [[1, 0], [0, 2]] ["aa", "bb"]

/-- C1 witness: the intersection characterization instantiated on a concrete
query, vocabulary and index. -/
theorem conj_search_is_intersection_witness :
    ((queryTerms (fun w => w) "pizza pasta").filterMap
        (resolveTerm [("pizza", 0), ("pasta", 1)] [(0, [0, 2]), (1, [2, 3])]) = [] →
        search_restaurants (fun w => w) "pizza pasta"
          [("pizza", 0), ("pasta", 1)] [(0, [0, 2]), (1, [2, 3])] = ∅) ∧
      ∀ d, d ∈ search_restaurants (fun w => w) "pizza pasta"
          [("pizza", 0), ("pasta", 1)] [(0, [0, 2]), (1, [2, 3])] ↔
        ((queryTerms (fun w => w) "pizza pasta").filterMap
            (resolveTerm [("pizza", 0), ("pasta", 1)] [(0, [0, 2]), (1, [2, 3])]) ≠ [] ∧
          ∀ ds ∈ (queryTerms (fun w => w) "pizza pasta").filterMap
              (resolveTerm [("pizza", 0), ("pasta", 1)] [(0, [0, 2]), (1, [2, 3])]),
            d ∈ ds) :=
  conj_search_is_intersection (fun w => w) "pizza pasta"
    [("pizza", 0), ("pasta", 1)] [(0, [0, 2]), (1, [2, 3])]

/-- C6 witness: the vocabulary-shape theorem instantiated on concrete
corpora. -/
theorem vocabulary_ids_contiguous_sorted_witness :
    ((create_vocabulary (fun w => w) ["modern italian cuisine"]).map Prod.fst =
        List.range (create_vocabulary (fun w => w) ["modern italian cuisine"]).length ∧
      ((create_vocabulary (fun w => w) ["modern italian cuisine"]).map Prod.snd).Pairwise
        (fun a b => strLe a b = true ∧ a ≠ b)) ∧
    ((create_vocabulary_rse (fun w => w) ["pizza pizza pasta"] 2 10).map Prod.fst =
        List.range (create_vocabulary_rse (fun w => w) ["pizza pizza pasta"] 2 10).length ∧
      ((create_vocabulary_rse (fun w => w) ["pizza pizza pasta"] 2 10).map Prod.snd).Pairwise
        (fun a b => strLe a b = true ∧ a ≠ b)) :=
  vocabulary_ids_contiguous_sorted (fun w => w) ["modern italian cuisine"]
    ["pizza pizza pasta"] 2 10

/-- C7 witness: the admission characterization instantiated on a concrete
corpus with bounds `2 ≤ 10`: the term `pizza` (count 2) is admitted and
`pasta` (count 1) is not. -/
theorem vocabulary_rse_admits_iff_witness :
    ((∀ w ∈ (create_vocabulary_rse (fun w => w) ["pizza pizza pasta"] 2 10).map Prod.snd,
        w ∈ splitWords (preprocess_text (fun w => w) (joinWords ["pizza pizza pasta"]))) ∧
      (∀ w ∈ splitWords (preprocess_text (fun w => w) (joinWords ["pizza pizza pasta"])),
        (w ∈ (create_vocabulary_rse (fun w => w) ["pizza pizza pasta"] 2 10).map Prod.snd ↔
          2 ≤ (splitWords (preprocess_text (fun w => w) (joinWords ["pizza pizza pasta"]))).count w ∧
            (splitWords (preprocess_text (fun w => w) (joinWords ["pizza pizza pasta"]))).count w ≤ 10))) ∧
      2 ≤ 10 :=
  ⟨vocabulary_rse_admits_iff (fun w => w) ["pizza pizza pasta"] 2 10 (by decide),
    by decide⟩

/-! ## Normalizer output properties (`preprocess_text`)

The token filter runs BEFORE stemming, so its guarantees hold of the tokens
entering the stemmer, not of the stems that come out. -/

/-- C5 counterexample: an output term of the Normalizer CAN belong to the
stopword list (`wills` stems to the stopword `will`) and CAN have length
`≤ 2` (`abs` stems to `ab`), because the filter inspects the token before
stemming. -/
theorem preprocess_output_can_violate_filter :
    preprocessTerms snowballStemAt "wills" = ["will"] ∧
      nltkStopwords.contains "will" = true ∧
      preprocessTerms snowballStemAt "abs" = ["ab"] ∧
      ("ab" : String).data.length ≤ 2 := by
  refine ⟨by decide, by decide, by decide, by decide⟩

/-- C5 (amended): every term of the Normalizer's output is the stem of a
token that — before stemming — is no stopword, is no substring of the
punctuation string, is alphanumeric and has length `> 2`; and the output
lists the stems of the surviving tokens in their original token order (it is
a sublist of the stemmed full token sequence).  The guarantees need not
survive stemming (see `preprocess_output_can_violate_filter`). -/
theorem preprocess_terms_are_stems_of_filtered_tokens (stem : String → String)
    (text : String) :
    (preprocessTerms stem text).Sublist
        ((tokenize (stripZeroWords (text.data.map Char.toLower))).map stem) ∧
      ∀ w ∈ preprocessTerms stem text,
        ∃ tok, w = stem tok ∧ nltkStopwords.contains tok = false ∧
          listHasSub pyPunctChars tok.data = false ∧ isalnumStr tok = true ∧
          2 < tok.data.length := by
  constructor
  · exact List.Sublist.map stem (List.filter_sublist _)
  · intro w hw
    obtain ⟨tok, htok, rfl⟩ := List.mem_map.mp hw
    obtain ⟨-, hkeep⟩ := List.mem_filter.mp htok
    rw [keepToken, Bool.and_eq_true, Bool.and_eq_true, Bool.and_eq_true,
      Bool.not_eq_true', Bool.not_eq_true'] at hkeep
    exact ⟨tok, rfl, hkeep.1.1.1, hkeep.1.1.2, hkeep.1.2, of_decide_eq_true hkeep.2⟩

/-- C5 witness: the amended statement instantiated at the modelled stemmer
and the text `wills`. -/
theorem preprocess_terms_are_stems_of_filtered_tokens_witness :
    (preprocessTerms snowballStemAt "wills").Sublist
        ((tokenize (stripZeroWords (("wills" : String).data.map Char.toLower))).map
          snowballStemAt) ∧
      ∀ w ∈ preprocessTerms snowballStemAt "wills",
        ∃ tok, w = snowballStemAt tok ∧ nltkStopwords.contains tok = false ∧
          listHasSub pyPunctChars tok.data = false ∧ isalnumStr tok = true ∧
          2 < tok.data.length :=
  preprocess_terms_are_stems_of_filtered_tokens snowballStemAt "wills"

/-! ## Idempotence analysis of `preprocess_text` (C10) -/

lemma joinWords_data_cons (w v : String) (ws : List String) :
    (joinWords (w :: v :: ws)).data = w.data ++ ' ' :: (joinWords (v :: ws)).data := by
  rw [joinWords, String.data_append, String.data_append, List.append_assoc]
  rfl

lemma tokenAux_alnum_chunk :
    ∀ (run rest acc : List Char), (∀ c ∈ run, c.isAlphanum = true) →
      tokenAux (run ++ rest) acc = tokenAux rest (acc ++ run) := by
  intro run
  induction run with
  | nil => intro rest acc _; rw [List.nil_append, List.append_nil]
  | cons c run ih =>
    intro rest acc h
    rw [List.cons_append, tokenAux, if_pos (h c (List.mem_cons_self _ _)),
      ih rest (acc ++ [c]) (fun c' hc' => h c' (List.mem_cons_of_mem _ hc')),
      List.append_assoc]
    rfl

lemma stripZeroAux_word_chunk :
    ∀ (run rest acc : List Char), (∀ c ∈ run, wordChar c = true) →
      stripZeroAux (run ++ rest) acc = stripZeroAux rest (acc ++ run) := by
  intro run
  induction run with
  | nil => intro rest acc _; rw [List.nil_append, List.append_nil]
  | cons c run ih =>
    intro rest acc h
    rw [List.cons_append, stripZeroAux, if_pos (h c (List.mem_cons_self _ _)),
      ih rest (acc ++ [c]) (fun c' hc' => h c' (List.mem_cons_of_mem _ hc')),
      List.append_assoc]
    rfl

lemma tokenize_join :
    ∀ ws : List String,
      (∀ w ∈ ws, w.data ≠ [] ∧ ∀ c ∈ w.data, c.isAlphanum = true) →
      tokenAux (joinWords ws).data [] = ws
  | [], _ => rfl
  | [w], h => by
    obtain ⟨hne, hal⟩ := h w (List.mem_cons_self _ _)
    rw [joinWords]
    have := tokenAux_alnum_chunk w.data [] [] hal
    rw [List.append_nil, List.nil_append] at this
    rw [this, tokenAux]
    cases hd : w.data with
    | nil => exact absurd hd hne
    | cons c cs =>
      rw [flushTok]
      have : String.mk (c :: cs) = w := by rw [← hd]
      rw [this]
  | w :: v :: ws, h => by
    obtain ⟨hne, hal⟩ := h w (List.mem_cons_self _ _)
    rw [joinWords_data_cons,
      tokenAux_alnum_chunk w.data (' ' :: (joinWords (v :: ws)).data) [] hal,
      List.nil_append, tokenAux]
    rw [if_neg (by decide), if_pos (by decide)]
    have hmk : flushTok w.data = [w] := by
      cases hd : w.data with
      | nil => exact absurd hd hne
      | cons c cs =>
        rw [flushTok]
        have : String.mk (c :: cs) = w := by rw [← hd]
        rw [this]
    rw [hmk, tokenize_join (v :: ws) (fun u hu => h u (List.mem_cons_of_mem _ hu))]
    rfl

lemma strip_join :
    ∀ ws : List String,
      (∀ w ∈ ws, w.data ≠ [] ∧ (∀ c ∈ w.data, c.isAlphanum = true) ∧
        w.data.head? ≠ some '0') →
      stripZeroAux (joinWords ws).data [] = (joinWords ws).data
  | [], _ => rfl
  | [w], h => by
    obtain ⟨hne, hal, h0⟩ := h w (List.mem_cons_self _ _)
    rw [joinWords]
    have := stripZeroAux_word_chunk w.data [] []
      (fun c hc => by rw [wordChar, hal c hc, Bool.true_or])
    rw [List.append_nil, List.nil_append] at this
    rw [this, stripZeroAux]
    cases hd : w.data with
    | nil => exact absurd hd hne
    | cons c cs =>
      rw [flushRun, if_neg]
      intro hc0
      rw [hd] at h0
      exact h0 (by rw [List.head?_cons, beq_iff_eq.mp hc0])
  | w :: v :: ws, h => by
    obtain ⟨hne, hal, h0⟩ := h w (List.mem_cons_self _ _)
    rw [joinWords_data_cons,
      stripZeroAux_word_chunk w.data (' ' :: (joinWords (v :: ws)).data) []
        (fun c hc => by rw [wordChar, hal c hc, Bool.true_or]),
      List.nil_append, stripZeroAux]
    rw [if_neg (by decide)]
    have hfr : flushRun w.data = w.data := by
      cases hd : w.data with
      | nil => exact absurd hd hne
      | cons c cs =>
        rw [flushRun, if_neg]
        intro hc0
        rw [hd] at h0
        exact h0 (by rw [List.head?_cons, beq_iff_eq.mp hc0])
    rw [hfr, strip_join (v :: ws) (fun u hu => h u (List.mem_cons_of_mem _ hu))]

lemma lower_join :
    ∀ ws : List String, (∀ w ∈ ws, w.data.map Char.toLower = w.data) →
      (joinWords ws).data.map Char.toLower = (joinWords ws).data
  | [], _ => rfl
  | [w], h => h w (List.mem_cons_self _ _)
  | w :: v :: ws, h => by
    rw [joinWords_data_cons, List.map_append, h w (List.mem_cons_self _ _),
      List.map_cons, lower_join (v :: ws) (fun u hu => h u (List.mem_cons_of_mem _ hu))]
    rfl

/-- Any space-joined list of words that are filter-clean (alphanumeric,
length `> 2`, no stopword, no punctuation substring), lowercase, not
`0`-initial and stem-fixed is left unchanged by `preprocess_text`. -/
lemma preprocess_fixes_clean_words (stem : String → String) (ws : List String)
    (h : ∀ w ∈ ws, keepToken w = true ∧ stem w = w ∧
      w.data.map Char.toLower = w.data ∧ w.data.head? ≠ some '0') :
    preprocess_text stem (joinWords ws) = joinWords ws := by
  have halnum : ∀ w ∈ ws, w.data ≠ [] ∧ ∀ c ∈ w.data, c.isAlphanum = true := by
    intro w hw
    have hk := (h w hw).1
    rw [keepToken, Bool.and_eq_true, Bool.and_eq_true, Bool.and_eq_true] at hk
    have hia := hk.1.2
    rw [isalnumStr, Bool.and_eq_true, Bool.not_eq_true', List.all_eq_true] at hia
    refine ⟨?_, hia.2⟩
    intro hnil
    rw [hnil] at hia
    exact Bool.noConfusion hia.1
  rw [preprocess_text, preprocessTerms]
  rw [lower_join ws (fun w hw => (h w hw).2.2.1)]
  rw [stripZeroWords,
    strip_join ws (fun w hw =>
      ⟨(halnum w hw).1, (halnum w hw).2, (h w hw).2.2.2⟩)]
  rw [tokenize, tokenize_join ws halnum]
  rw [List.filter_eq_self.mpr (fun w hw => (h w hw).1)]
  have hmap : ws.map stem = ws := by
    rw [List.map_congr_left (fun w hw => (h w hw).2.1), List.map_id']
  rw [hmap]

/-- C10 counterexample: `preprocess_text` is NOT idempotent.  With the
(modelled) Snowball stemmer, `wills` normalizes to `will`, and re-running
the Normalizer on that output removes `will` again because the stem is a
stopword. -/
theorem preprocess_text_not_idempotent :
    preprocess_text snowballStemAt (preprocess_text snowballStemAt "wills") ≠
      preprocess_text snowballStemAt "wills" := by decide

/-- C10 (amended): `preprocess_text` is idempotent on every text whose
output terms are themselves still filter-clean, lowercase, not `0`-initial
and fixed points of the stemmer.  (The counterexample
`preprocess_text_not_idempotent` shows the restriction is necessary: a stem
may itself be a stopword, or too short.) -/
theorem preprocess_idempotent_on_stable_terms (stem : String → String)
    (text : String)
    (h : ∀ w ∈ preprocessTerms stem text,
      keepToken w = true ∧ stem w = w ∧ w.data.map Char.toLower = w.data ∧
        w.data.head? ≠ some '0') :
    preprocess_text stem (preprocess_text stem text) = preprocess_text stem text :=
  preprocess_fixes_clean_words stem (preprocessTerms stem text) h

/-- C10 witness: idempotence holds at a text whose output terms are stable
under the (identity-on-these-words) stemmer. -/
theorem preprocess_idempotent_on_stable_terms_witness :
    preprocess_text (fun w => w) (preprocess_text (fun w => w) "Pizza pasta!") =
      preprocess_text (fun w => w) "Pizza pasta!" :=
  preprocess_idempotent_on_stable_terms (fun w => w) "Pizza pasta!" (by decide)

/-! ## The `doc_scores` dictionary: lookup and key lemmas -/

lemma scoreOf_nil (d : ℕ) : scoreOf [] d = none := rfl

lemma scoreOf_cons (d' : ℕ) (v' : ℚ) (rest : List (ℕ × ℚ)) (d : ℕ) :
    scoreOf ((d', v') :: rest) d =
      if d' = d then some v' else scoreOf rest d := by
  by_cases h : d' = d
  · simp [scoreOf, List.find?_cons, h]
  · simp [scoreOf, List.find?_cons, h]

lemma scoreOf_addScore_self (sc : List (ℕ × ℚ)) (d : ℕ) (v : ℚ) :
    scoreOf (addScore sc d v) d = some ((scoreOf sc d).getD 0 + v) := by
  induction sc with
  | nil => simp [addScore, scoreOf_cons, scoreOf_nil]
  | cons p rest ih =>
    obtain ⟨d', v'⟩ := p
    rw [addScore]
    by_cases h : d' = d
    · rw [if_pos h, scoreOf_cons, if_pos h, scoreOf_cons, if_pos h]
      rfl
    · rw [if_neg h, scoreOf_cons, if_neg h, scoreOf_cons, if_neg h, ih]

lemma scoreOf_addScore_ne (sc : List (ℕ × ℚ)) (d d' : ℕ) (v : ℚ) (hne : d' ≠ d) :
    scoreOf (addScore sc d v) d' = scoreOf sc d' := by
  induction sc with
  | nil =>
    rw [addScore, scoreOf_cons, if_neg (fun h => hne h.symm)]
  | cons p rest ih =>
    obtain ⟨d₀, v₀⟩ := p
    rw [addScore]
    by_cases h : d₀ = d
    · rw [if_pos h, scoreOf_cons, scoreOf_cons]
      subst h
      rw [if_neg (fun h => hne h.symm), if_neg (fun h => hne h.symm)]
    · rw [if_neg h, scoreOf_cons, scoreOf_cons]
      by_cases h' : d₀ = d'
      · rw [if_pos h', if_pos h']
      · rw [if_neg h', if_neg h', ih]

lemma scoreOf_eq_none_iff (sc : List (ℕ × ℚ)) (d : ℕ) :
    scoreOf sc d = none ↔ d ∉ sc.map Prod.fst := by
  induction sc with
  | nil => simp [scoreOf_nil]
  | cons p rest ih =>
    obtain ⟨d', v'⟩ := p
    rw [scoreOf_cons]
    by_cases h : d' = d
    · simp [h]
    · simp [h, ih, Ne.symm h]

lemma addScore_fst_of_mem {sc : List (ℕ × ℚ)} {d : ℕ} (v : ℚ)
    (h : d ∈ sc.map Prod.fst) :
    (addScore sc d v).map Prod.fst = sc.map Prod.fst := by
  induction sc with
  | nil => simp at h
  | cons p rest ih =>
    obtain ⟨d', v'⟩ := p
    rw [addScore]
    by_cases hd : d' = d
    · rw [if_pos hd]; rfl
    · rw [if_neg hd, List.map_cons, List.map_cons, ih]
      rcases List.mem_map.mp h with ⟨x, hx, hfst⟩
      rcases List.mem_cons.mp hx with hx | hx
      · exact absurd (by rw [hx] at hfst; exact hfst) hd
      · exact List.mem_map.mpr ⟨x, hx, hfst⟩

lemma addScore_fst_of_not_mem {sc : List (ℕ × ℚ)} {d : ℕ} (v : ℚ)
    (h : d ∉ sc.map Prod.fst) :
    (addScore sc d v).map Prod.fst = sc.map Prod.fst ++ [d] := by
  induction sc with
  | nil => rfl
  | cons p rest ih =>
    obtain ⟨d', v'⟩ := p
    rw [addScore]
    by_cases hd : d' = d
    · exact absurd (List.mem_map.mpr ⟨(d', v'), List.mem_cons_self _ _, hd⟩) h
    · rw [if_neg hd, List.map_cons, List.map_cons,
        ih (fun hm => h (List.mem_cons_of_mem _ hm)), List.cons_append]

lemma addScore_fst_nodup {sc : List (ℕ × ℚ)} (d : ℕ) (v : ℚ)
    (h : (sc.map Prod.fst).Nodup) : ((addScore sc d v).map Prod.fst).Nodup := by
  by_cases hm : d ∈ sc.map Prod.fst
  · rw [addScore_fst_of_mem v hm]; exact h
  · rw [addScore_fst_of_not_mem v hm]
    rw [List.nodup_append]
    exact ⟨h, List.nodup_singleton d, by simpa using hm⟩

lemma addScore_fst_mem_iff (sc : List (ℕ × ℚ)) (d d' : ℕ) (v : ℚ) :
    d' ∈ (addScore sc d v).map Prod.fst ↔ d' ∈ sc.map Prod.fst ∨ d' = d := by
  by_cases hm : d ∈ sc.map Prod.fst
  · rw [addScore_fst_of_mem v hm]
    constructor
    · exact Or.inl
    · rintro (h | rfl)
      · exact h
      · exact hm
  · rw [addScore_fst_of_not_mem v hm]
    simp

lemma find?_fst_eq_none_iff (ps : List (ℕ × ℚ)) (d : ℕ) :
    ps.find? (fun p => p.1 == d) = none ↔ d ∉ ps.map Prod.fst := by
  rw [List.find?_eq_none]
  constructor
  · intro h hm
    obtain ⟨x, hx, hfst⟩ := List.mem_map.mp hm
    exact h x hx (by simpa using hfst)
  · intro h x hx hbeq
    exact h (List.mem_map.mpr ⟨x, hx, by simpa using hbeq⟩)

lemma find?_fst_eq_of_mem {ps : List (ℕ × ℚ)} (hnd : (ps.map Prod.fst).Nodup)
    {d : ℕ} {w : ℚ} (hm : (d, w) ∈ ps) :
    ps.find? (fun p => p.1 == d) = some (d, w) := by
  induction ps with
  | nil => simp at hm
  | cons p₀ ps ih =>
    rw [List.map_cons, List.nodup_cons] at hnd
    by_cases h0 : p₀.1 = d
    · have : p₀ = (d, w) := by
        rcases List.mem_cons.mp hm with hm | hm
        · exact hm.symm
        · exact absurd (h0 ▸ List.mem_map.mpr ⟨(d, w), hm, rfl⟩) hnd.1
      rw [List.find?_cons, this]
      simp
    · rw [List.find?_cons]
      have hb : (p₀.1 == d) = false := by simpa using h0
      rw [hb]
      refine ih hnd.2 ?_
      rcases List.mem_cons.mp hm with hm | hm
      · exact absurd (congrArg Prod.fst hm.symm) h0
      · exact hm

lemma scoreOf_accumPostings (qs : ℚ) :
    ∀ (ps sc : List (ℕ × ℚ)) (d : ℕ), (ps.map Prod.fst).Nodup →
      scoreOf (accumPostings sc qs ps) d =
        match ps.find? (fun p => p.1 == d) with
        | some p => some ((scoreOf sc d).getD 0 + qs * p.2)
        | none => scoreOf sc d := by
  intro ps
  induction ps with
  | nil => intro sc d _; rfl
  | cons p₀ ps ih =>
    intro sc d hnd
    rw [List.map_cons, List.nodup_cons] at hnd
    rw [accumPostings, List.foldl_cons]
    have haccum : ps.foldl (fun sc p => addScore sc p.1 (qs * p.2))
        (addScore sc p₀.1 (qs * p₀.2)) =
        accumPostings (addScore sc p₀.1 (qs * p₀.2)) qs ps := rfl
    rw [haccum, ih (addScore sc p₀.1 (qs * p₀.2)) d hnd.2]
    by_cases h0 : p₀.1 = d
    · have hfnone : ps.find? (fun p => p.1 == d) = none :=
        (find?_fst_eq_none_iff ps d).mpr (h0 ▸ hnd.1)
      rw [hfnone, List.find?_cons]
      have hb : (p₀.1 == d) = true := by simpa using h0
      rw [hb]
      rw [h0] at *
      rw [scoreOf_addScore_self]
    · rw [List.find?_cons]
      have hb : (p₀.1 == d) = false := by simpa using h0
      rw [hb, scoreOf_addScore_ne sc p₀.1 d (qs * p₀.2) (fun h => h0 h.symm)]

lemma accumPostings_fst_nodup (qs : ℚ) :
    ∀ (ps sc : List (ℕ × ℚ)), (sc.map Prod.fst).Nodup →
      ((accumPostings sc qs ps).map Prod.fst).Nodup := by
  intro ps
  induction ps with
  | nil => intro sc h; exact h
  | cons p₀ ps ih =>
    intro sc h
    rw [accumPostings, List.foldl_cons]
    exact ih (addScore sc p₀.1 (qs * p₀.2)) (addScore_fst_nodup p₀.1 (qs * p₀.2) h)

lemma mem_iff_scoreOf {sc : List (ℕ × ℚ)} (hnd : (sc.map Prod.fst).Nodup)
    {d : ℕ} {v : ℚ} : (d, v) ∈ sc ↔ scoreOf sc d = some v := by
  induction sc with
  | nil => simp [scoreOf_nil]
  | cons p₀ sc ih =>
    obtain ⟨d₀, v₀⟩ := p₀
    rw [List.map_cons, List.nodup_cons] at hnd
    rw [scoreOf_cons, List.mem_cons]
    by_cases h0 : d₀ = d
    · rw [if_pos h0]
      constructor
      · rintro (hm | hm)
        · rw [Prod.mk.injEq] at hm
          rw [hm.2]
        · exact absurd (List.mem_map.mpr ⟨(d, v), hm, h0.symm⟩) hnd.1
      · intro h
        left
        rw [Prod.mk.injEq]
        exact ⟨h0.symm, (Option.some_inj.mp h).symm⟩
    · rw [if_neg h0, ← ih hnd.2]
      constructor
      · rintro (hm | hm)
        · rw [Prod.mk.injEq] at hm
          exact absurd hm.1.symm h0
        · exact hm
      · exact Or.inr

lemma colPostings_fst_nodup (M : List (List ℚ)) (i : ℕ) :
    ((colPostings M i).map Prod.fst).Nodup :=
  (colPostings_fst_pairwise M i).imp (fun h => Nat.ne_of_lt h)

lemma colPostings_find? (M : List (List ℚ)) (i d : ℕ) :
    (colPostings M i).find? (fun p => p.1 == d) =
      if entryAt M d i ≠ 0 then some (d, entryAt M d i) else none := by
  by_cases h : entryAt M d i ≠ 0
  · rw [if_pos h]
    exact find?_fst_eq_of_mem (colPostings_fst_nodup M i)
      (mem_colPostings.mpr ⟨h, rfl⟩)
  · rw [if_neg h, find?_fst_eq_none_iff]
    intro hm
    obtain ⟨x, hx, hfst⟩ := List.mem_map.mp hm
    obtain ⟨d', w⟩ := x
    rw [show d' = d from hfst] at hx
    exact h (mem_colPostings.mp hx).1

lemma find?_enumFrom_build (M : List (List ℚ)) :
    ∀ (terms : List String) (start : ℕ), terms.Nodup →
      ∀ (i : ℕ) (hi : i < terms.length),
        ((List.enumFrom start terms).map
            (fun p => (p.2, colPostings M p.1))).find?
          (fun p => p.1 == terms.get ⟨i, hi⟩) =
          some (terms.get ⟨i, hi⟩, colPostings M (start + i)) := by
  intro terms
  induction terms with
  | nil => intro start _ i hi; exact absurd hi (Nat.not_lt_zero i)
  | cons t ts ih =>
    intro start hnd i hi
    rw [List.nodup_cons] at hnd
    rw [List.enumFrom_cons, List.map_cons, List.find?_cons]
    cases i with
    | zero =>
      have : (t == (t :: ts).get ⟨0, hi⟩) = true := by simp [List.get]
      rw [this]
      rfl
    | succ j =>
      have hj : j < ts.length := Nat.lt_of_succ_lt_succ hi
      have hgetsucc : (t :: ts).get ⟨j + 1, hi⟩ = ts.get ⟨j, hj⟩ := rfl
      have hne : (t == (t :: ts).get ⟨j + 1, hi⟩) = false := by
        rw [hgetsucc]
        simp only [beq_eq_false_iff_ne, ne_eq]
        intro hEq
        exact hnd.1 (hEq ▸ ts.get_mem j hj)
      rw [hne, hgetsucc, ih (start + 1) hnd.2 j hj]
      have : start + 1 + j = start + (j + 1) := by omega
      rw [this]

lemma lookupIdxRse_build_eq (M : List (List ℚ)) {terms : List String}
    (hnd : terms.Nodup) {i : ℕ} (hi : i < terms.length) :
    lookupIdxRse (build_inverted_index_rse M terms) (terms.get ⟨i, hi⟩) =
      some (colPostings M i) := by
  have h := find?_enumFrom_build M terms 0 hnd i hi
  rw [Nat.zero_add] at h
  rw [lookupIdxRse,
    show build_inverted_index_rse M terms =
      (List.enumFrom 0 terms).map (fun p => (p.2, colPostings M p.1)) from rfl,
    h]
  rfl

lemma docScoresAux_scoreOf (M : List (List ℚ)) {terms : List String}
    (hnd : terms.Nodup) (d : ℕ) :
    ∀ (rest : List ℚ) (i : ℕ) (sc : List (ℕ × ℚ)),
      i + rest.length ≤ terms.length →
      scoreOf (docScoresAux terms (build_inverted_index_rse M terms) i rest sc) d =
        match scoreOf sc d with
        | some v => some (v + tailDot M d i rest)
        | none =>
          if touchedB M d i rest then some (tailDot M d i rest) else none := by
  intro rest
  induction rest with
  | nil =>
    intro i sc _
    cases h : scoreOf sc d with
    | none => simp [docScoresAux, tailDot, touchedB, h]
    | some v => simp [docScoresAux, tailDot, touchedB, h]
  | cons qs rest ih =>
    intro i sc hbound
    have hi : i < terms.length := by
      rw [List.length_cons] at hbound
      omega
    have hget : terms.get? i = some (terms.get ⟨i, hi⟩) := List.get?_eq_get hi
    by_cases h0 : 0 < qs
    · have hstep : docScoresAux terms (build_inverted_index_rse M terms) i
          (qs :: rest) sc =
          docScoresAux terms (build_inverted_index_rse M terms) (i + 1) rest
            (accumPostings sc qs (colPostings M i)) := by
        simp only [docScoresAux, if_pos h0, hget, lookupIdxRse_build_eq M hnd hi]
      rw [hstep, ih (i + 1) _ (by rw [List.length_cons] at hbound; omega)]
      rw [scoreOf_accumPostings qs (colPostings M i) sc d (colPostings_fst_nodup M i),
        colPostings_find? M i d]
      by_cases he : entryAt M d i ≠ 0
      · rw [if_pos he]
        cases hsc : scoreOf sc d with
        | some v => simp [tailDot, touchedB, hsc, h0, add_assoc]
        | none => simp [tailDot, touchedB, hsc, h0, he]
      · rw [if_neg he]
        push_neg at he
        cases hsc : scoreOf sc d with
        | some v => simp [tailDot, touchedB, hsc, h0, he]
        | none => simp [tailDot, touchedB, hsc, h0, he]
    · have hstep : docScoresAux terms (build_inverted_index_rse M terms) i
          (qs :: rest) sc =
          docScoresAux terms (build_inverted_index_rse M terms) (i + 1) rest sc := by
        simp only [docScoresAux, if_neg h0]
      rw [hstep, ih (i + 1) sc (by rw [List.length_cons] at hbound; omega)]
      cases hsc : scoreOf sc d with
      | some v => simp [tailDot, touchedB, hsc, h0]
      | none => simp [tailDot, touchedB, hsc, h0]

/-- Top-level characterization of the `doc_scores` dictionary: document `d`
has an entry iff it is touched, and its value is the loop's dot product. -/
lemma docScores_scoreOf (M : List (List ℚ)) {terms : List String} {q : List ℚ}
    (hnd : terms.Nodup) (hlen : q.length = terms.length) (d : ℕ) :
    scoreOf (docScores q terms (build_inverted_index_rse M terms)) d =
      if touchedB M d 0 q then some (tailDot M d 0 q) else none := by
  have h := docScoresAux_scoreOf M hnd d q 0 [] (by omega)
  rw [docScores] at *
  rw [h]
  rfl

/-! ## Dot products: the loop's accumulation versus the dense computation -/

lemma denseDot_nil_right (q : List ℚ) : denseDot q [] = 0 := by
  simp [denseDot]

lemma denseDot_cons_cons (a b : ℚ) (as bs : List ℚ) :
    denseDot (a :: as) (b :: bs) = a * b + denseDot as bs := by
  simp [denseDot]

lemma entryAt_eq_zero_of_ge {M : List (List ℚ)} {d : ℕ} (i : ℕ)
    (h : M.length ≤ d) : entryAt M d i = 0 := by
  have hrow : M.getD d [] = [] := by
    rw [List.getD_eq_getElem?_getD, List.getElem?_eq_none h]
    rfl
  rw [entryAt, hrow]
  rfl

lemma lt_of_entryAt_ne_zero {M : List (List ℚ)} {d i : ℕ}
    (h : entryAt M d i ≠ 0) : d < M.length := by
  by_contra hge
  exact h (entryAt_eq_zero_of_ge i (le_of_not_lt hge))

lemma entryAt_nonneg {M : List (List ℚ)}
    (hM : ∀ row ∈ M, ∀ v ∈ row, 0 ≤ v) (d i : ℕ) : 0 ≤ entryAt M d i := by
  by_cases hd : d < M.length
  · have hrow : M.getD d [] = M[d] := List.getD_eq_getElem M [] hd
    by_cases hi : i < (M.getD d []).length
    · rw [entryAt, List.getD_eq_getElem _ _ hi]
      refine hM (M.getD d []) ?_ _ (List.getElem_mem hi)
      rw [hrow]
      exact List.getElem_mem hd
    · rw [entryAt, List.getD_eq_getElem?_getD, List.getElem?_eq_none (le_of_not_lt hi)]
      exact le_refl 0
  · rw [entryAt_eq_zero_of_ge i (le_of_not_lt hd)]

lemma tailDot_eq_denseDot_drop (M : List (List ℚ)) (d : ℕ) :
    ∀ (q : List ℚ) (i : ℕ), (∀ v ∈ q, 0 ≤ v) →
      tailDot M d i q = denseDot q ((M.getD d []).drop i) := by
  intro q
  induction q with
  | nil => intro i _; simp [tailDot, denseDot]
  | cons qs rest ih =>
    intro i hq
    rw [tailDot]
    have hcontrib : (if 0 < qs then qs * entryAt M d i else 0) =
        qs * entryAt M d i := by
      by_cases h0 : 0 < qs
      · rw [if_pos h0]
      · rw [if_neg h0,
          le_antisymm (not_lt.mp h0) (hq qs (List.mem_cons_self _ _)), zero_mul]
    rw [hcontrib, ih (i + 1) (fun v hv => hq v (List.mem_cons_of_mem _ hv))]
    by_cases hi : i < (M.getD d []).length
    · rw [List.drop_eq_getElem_cons hi, denseDot_cons_cons, entryAt,
        List.getD_eq_getElem _ _ hi]
    · have h1 : (M.getD d []).drop i = [] :=
        List.drop_eq_nil_of_le (le_of_not_lt hi)
      have h2 : (M.getD d []).drop (i + 1) = [] :=
        List.drop_eq_nil_of_le (by omega)
      rw [h1, h2, denseDot_nil_right, denseDot_nil_right, entryAt,
        List.getD_eq_getElem?_getD, List.getElem?_eq_none (le_of_not_lt hi)]
      simp

lemma tailDot_zero_eq_denseDot (M : List (List ℚ)) (d : ℕ) {q : List ℚ}
    (hq : ∀ v ∈ q, 0 ≤ v) :
    tailDot M d 0 q = denseDot q (M.getD d []) := by
  rw [tailDot_eq_denseDot_drop M d q 0 hq, List.drop_zero]

lemma tailDot_nonneg {M : List (List ℚ)}
    (hM : ∀ row ∈ M, ∀ v ∈ row, 0 ≤ v) (d : ℕ) :
    ∀ (q : List ℚ) (i : ℕ), 0 ≤ tailDot M d i q := by
  intro q
  induction q with
  | nil => intro i; exact le_refl 0
  | cons qs rest ih =>
    intro i
    rw [tailDot]
    refine add_nonneg ?_ (ih (i + 1))
    by_cases h0 : 0 < qs
    · rw [if_pos h0]
      exact mul_nonneg (le_of_lt h0) (entryAt_nonneg hM d i)
    · rw [if_neg h0]

lemma tailDot_pos {M : List (List ℚ)}
    (hM : ∀ row ∈ M, ∀ v ∈ row, 0 ≤ v) (d : ℕ) :
    ∀ (q : List ℚ) (i : ℕ), touchedB M d i q = true → 0 < tailDot M d i q := by
  intro q
  induction q with
  | nil => intro i h; exact absurd h (by simp [touchedB])
  | cons qs rest ih =>
    intro i h
    rw [touchedB, Bool.or_eq_true, Bool.and_eq_true, decide_eq_true_eq,
      decide_eq_true_eq] at h
    rw [tailDot]
    rcases h with ⟨h0, he⟩ | h
    · refine add_pos_of_pos_of_nonneg ?_ (tailDot_nonneg hM d rest (i + 1))
      rw [if_pos h0]
      exact mul_pos h0 (lt_of_le_of_ne (entryAt_nonneg hM d i) (Ne.symm he))
    · refine add_pos_of_nonneg_of_pos ?_ (ih (i + 1) h)
      by_cases h0 : 0 < qs
      · rw [if_pos h0]
        exact mul_nonneg (le_of_lt h0) (entryAt_nonneg hM d i)
      · rw [if_neg h0]

lemma tailDot_eq_zero_of_not_touched {M : List (List ℚ)} (d : ℕ) :
    ∀ (q : List ℚ) (i : ℕ), touchedB M d i q = false → tailDot M d i q = 0 := by
  intro q
  induction q with
  | nil => intro i _; rfl
  | cons qs rest ih =>
    intro i h
    rw [touchedB, Bool.or_eq_false_iff, Bool.and_eq_false_iff] at h
    rw [tailDot, ih (i + 1) h.2]
    rcases h.1 with h0 | he
    · rw [if_neg (by simpa using h0), add_zero]
    · by_cases h0 : 0 < qs
      · rw [if_pos h0]
        have : entryAt M d i = 0 := by simpa using he
        rw [this, mul_zero, add_zero]
      · rw [if_neg h0, add_zero]

lemma touchedB_iff {M : List (List ℚ)} (d : ℕ) :
    ∀ (q : List ℚ) (i : ℕ),
      touchedB M d i q = true ↔
        ∃ j, j < q.length ∧ 0 < q.getD j 0 ∧ entryAt M d (i + j) ≠ 0 := by
  intro q
  induction q with
  | nil =>
    intro i
    simp [touchedB]
  | cons qs rest ih =>
    intro i
    rw [touchedB, Bool.or_eq_true, Bool.and_eq_true, decide_eq_true_eq,
      decide_eq_true_eq, ih (i + 1)]
    constructor
    · rintro (⟨h0, he⟩ | ⟨j, hj, h0, he⟩)
      · exact ⟨0, by simp [List.getD_cons_zero, h0, he]⟩
      · refine ⟨j + 1, by simpa using hj, by simpa [List.getD_cons_succ] using h0, ?_⟩
        have : i + (j + 1) = i + 1 + j := by omega
        rw [this]
        exact he
    · rintro ⟨j, hj, h0, he⟩
      cases j with
      | zero =>
        left
        rw [List.getD_cons_zero] at h0
        rw [Nat.add_zero] at he
        exact ⟨h0, he⟩
      | succ j =>
        right
        refine ⟨j, by simpa using hj, by simpa [List.getD_cons_succ] using h0, ?_⟩
        have : i + 1 + j = i + (j + 1) := by omega
        rw [this]
        exact he

lemma docScoresAux_fst_nodup (terms : List String)
    (idx : List (String × List (ℕ × ℚ))) :
    ∀ (rest : List ℚ) (i : ℕ) (sc : List (ℕ × ℚ)),
      (sc.map Prod.fst).Nodup →
      ((docScoresAux terms idx i rest sc).map Prod.fst).Nodup := by
  intro rest
  induction rest with
  | nil => intro i sc h; exact h
  | cons qs rest ih =>
    intro i sc h
    rw [docScoresAux]
    apply ih
    by_cases h0 : 0 < qs
    · rw [if_pos h0]
      cases terms.get? i with
      | none => exact h
      | some t =>
        show ((match lookupIdxRse idx t with
          | some ps => accumPostings sc qs ps
          | none => sc).map Prod.fst).Nodup
        cases lookupIdxRse idx t with
        | none => exact h
        | some ps => exact accumPostings_fst_nodup qs ps sc h
    · rw [if_neg h0]
      exact h

lemma docScores_fst_nodup (q : List ℚ) (terms : List String)
    (idx : List (String × List (ℕ × ℚ))) :
    ((docScores q terms idx).map Prod.fst).Nodup :=
  docScoresAux_fst_nodup terms idx q 0 [] List.nodup_nil

lemma docScoresAux_all_zero (terms : List String)
    (idx : List (String × List (ℕ × ℚ))) :
    ∀ (rest : List ℚ) (i : ℕ) (sc : List (ℕ × ℚ)),
      (∀ v ∈ rest, v = 0) → docScoresAux terms idx i rest sc = sc := by
  intro rest
  induction rest with
  | nil => intro i sc _; rfl
  | cons qs rest ih =>
    intro i sc h
    rw [docScoresAux,
      if_neg (by rw [h qs (List.mem_cons_self _ _)]; exact lt_irrefl 0),
      ih (i + 1) sc (fun v hv => h v (List.mem_cons_of_mem _ hv))]

lemma mem_docScores_iff (M : List (List ℚ)) {terms : List String} {q : List ℚ}
    (hnd : terms.Nodup) (hlen : q.length = terms.length) {d : ℕ} {v : ℚ} :
    (d, v) ∈ docScores q terms (build_inverted_index_rse M terms) ↔
      touchedB M d 0 q = true ∧ v = tailDot M d 0 q := by
  rw [mem_iff_scoreOf (docScores_fst_nodup q terms _),
    docScores_scoreOf M hnd hlen d]
  by_cases ht : touchedB M d 0 q = true
  · rw [if_pos ht]
    simp [ht, eq_comm]
  · rw [if_neg ht]
    simp [ht]

lemma fst_mem_docScores_iff (M : List (List ℚ)) {terms : List String}
    {q : List ℚ} (hnd : terms.Nodup) (hlen : q.length = terms.length) (d : ℕ) :
    d ∈ (docScores q terms (build_inverted_index_rse M terms)).map Prod.fst ↔
      touchedB M d 0 q = true := by
  constructor
  · intro h
    obtain ⟨p, hp, hfst⟩ := List.mem_map.mp h
    obtain ⟨d', v⟩ := p
    rw [show d' = d from hfst] at hp
    exact ((mem_docScores_iff M hnd hlen).mp hp).1
  · intro h
    exact List.mem_map.mpr ⟨(d, tailDot M d 0 q),
      (mem_docScores_iff M hnd hlen).mpr ⟨h, rfl⟩, rfl⟩

/-! ## Norms -/

lemma rowSumSq_nonneg (row : List ℚ) : 0 ≤ rowSumSq row := by
  rw [rowSumSq]
  refine List.sum_nonneg ?_
  intro x hx
  obtain ⟨v, _, rfl⟩ := List.mem_map.mp hx
  exact mul_self_nonneg v

lemma rowNormSq_pos_of_entry {M : List (List ℚ)} {d i : ℕ}
    (h : entryAt M d i ≠ 0) : 0 < rowNormSq M d := by
  have hi : i < (M.getD d []).length := by
    by_contra hge
    have : (M.getD d []).getD i 0 = 0 := by
      rw [List.getD_eq_getElem?_getD, List.getElem?_eq_none (le_of_not_lt hge)]
      rfl
    exact h this
  have hv : (M.getD d [])[i] ≠ 0 := by
    intro h0
    exact h (by rw [entryAt, List.getD_eq_getElem _ _ hi, h0])
  have hmem : (M.getD d [])[i] * (M.getD d [])[i] ∈
      (M.getD d []).map (fun x => x * x) :=
    List.mem_map.mpr ⟨_, List.getElem_mem hi, rfl⟩
  have hle := List.single_le_sum
    (fun x hx => by
      obtain ⟨v, _, rfl⟩ := List.mem_map.mp hx
      exact mul_self_nonneg v) _ hmem
  calc (0 : ℚ) < (M.getD d [])[i] * (M.getD d [])[i] := mul_self_pos.mpr hv
    _ ≤ rowNormSq M d := hle

lemma qNormSq_nonneg (q : List ℚ) : 0 ≤ qNormSq q := by
  rw [qNormSq]
  refine List.sum_nonneg ?_
  intro x hx
  obtain ⟨v, _, rfl⟩ := List.mem_map.mp hx
  exact mul_self_nonneg v

lemma qNormSq_pos_of_getD {q : List ℚ} {j : ℕ} (hj : j < q.length)
    (h : q.getD j 0 ≠ 0) : 0 < qNormSq q := by
  have hv : q[j] ≠ 0 := by
    rw [List.getD_eq_getElem _ _ hj] at h
    exact h
  have hmem : q[j] * q[j] ∈ q.map (fun x => x * x) :=
    List.mem_map.mpr ⟨_, List.getElem_mem hj, rfl⟩
  have hle := List.single_le_sum
    (fun x hx => by
      obtain ⟨v, _, rfl⟩ := List.mem_map.mp hx
      exact mul_self_nonneg v) _ hmem
  calc (0 : ℚ) < q[j] * q[j] := mul_self_pos.mpr hv
    _ ≤ qNormSq q := hle

/-! ## The rational sort key orders exactly like the real cosine score -/

lemma mul_abs_le_mul_abs_iff (x y : ℝ) : x * |x| ≤ y * |y| ↔ x ≤ y := by
  constructor
  · intro h
    by_contra hxy
    push_neg at hxy
    rcases le_or_lt 0 y with hy | hy
    · have hx : 0 < x := lt_of_le_of_lt hy hxy
      rw [abs_of_nonneg hy, abs_of_pos hx] at h
      nlinarith
    · rcases le_or_lt 0 x with hx | hx
      · rw [abs_of_neg hy, abs_of_nonneg hx] at h
        nlinarith
      · rw [abs_of_neg hy, abs_of_neg hx] at h
        nlinarith
  · intro h
    rcases le_or_lt 0 x with hx | hx
    · have hy : 0 ≤ y := le_trans hx h
      rw [abs_of_nonneg hx, abs_of_nonneg hy]
      nlinarith
    · rcases le_or_lt 0 y with hy | hy
      · rw [abs_of_neg hx, abs_of_nonneg hy]
        nlinarith
      · rw [abs_of_neg hx, abs_of_neg hy]
        nlinarith

lemma scoreKey_cast {a : ℚ × ℚ} (ha : 0 < a.2) :
    (scoreKey a : ℝ) =
      ((a.1 : ℝ) / Real.sqrt (a.2 : ℝ)) * |(a.1 : ℝ) / Real.sqrt (a.2 : ℝ)| := by
  have haR : (0 : ℝ) < (a.2 : ℝ) := by exact_mod_cast ha
  have hs : (0 : ℝ) < Real.sqrt (a.2 : ℝ) := Real.sqrt_pos.mpr haR
  have hss : Real.sqrt (a.2 : ℝ) * Real.sqrt (a.2 : ℝ) = (a.2 : ℝ) :=
    Real.mul_self_sqrt (le_of_lt haR)
  rw [abs_div, abs_of_pos hs, div_mul_div_comm, hss, scoreKey]
  by_cases hneg : a.1 < 0
  · rw [if_pos hneg]
    push_cast
    rw [abs_of_neg (show (a.1 : ℝ) < 0 by exact_mod_cast hneg)]
    ring
  · rw [if_neg hneg]
    push_cast
    rw [abs_of_nonneg (show (0 : ℝ) ≤ (a.1 : ℝ) by exact_mod_cast not_lt.mp hneg)]

lemma scoreKey_le_iff {qns : ℚ} (hqns : 0 < qns) {a b : ℚ × ℚ}
    (ha : 0 < a.2) (hb : 0 < b.2) :
    scoreKey a ≤ scoreKey b ↔
      (a.1 : ℝ) / (Real.sqrt (qns : ℝ) * Real.sqrt (a.2 : ℝ)) ≤
        (b.1 : ℝ) / (Real.sqrt (qns : ℝ) * Real.sqrt (b.2 : ℝ)) := by
  have hq : (0 : ℝ) < Real.sqrt (qns : ℝ) :=
    Real.sqrt_pos.mpr (by exact_mod_cast hqns)
  have key : ∀ p : ℚ × ℚ,
      (p.1 : ℝ) / (Real.sqrt (qns : ℝ) * Real.sqrt (p.2 : ℝ)) =
        ((p.1 : ℝ) / Real.sqrt (p.2 : ℝ)) / Real.sqrt (qns : ℝ) := by
    intro p
    rw [div_div, mul_comm]
  rw [key a, key b, div_le_div_iff_of_pos_right hq, ← Rat.cast_le (K := ℝ),
    scoreKey_cast ha, scoreKey_cast hb, mul_abs_le_mul_abs_iff]

lemma rankLe_trans (a b c : ℕ × ℚ × ℚ) (h1 : rankLe a b = true)
    (h2 : rankLe b c = true) : rankLe a c = true := by
  rw [rankLe, decide_eq_true_eq] at *
  exact le_trans h2 h1

lemma rankLe_total (a b : ℕ × ℚ × ℚ) : (rankLe a b || rankLe b a) = true := by
  rw [rankLe, rankLe, Bool.or_eq_true, decide_eq_true_eq, decide_eq_true_eq]
  exact le_total (scoreKey b.2) (scoreKey a.2)

lemma mem_scoredDocs_iff (M : List (List ℚ)) {terms : List String} {q : List ℚ}
    (hnd : terms.Nodup) (hlen : q.length = terms.length) {p : ℕ × ℚ × ℚ} :
    p ∈ scoredDocs M q terms (build_inverted_index_rse M terms) ↔
      touchedB M p.1 0 q = true ∧ p.2.1 = tailDot M p.1 0 q ∧
        p.2.2 = rowNormSq M p.1 := by
  rw [scoredDocs]
  constructor
  · intro hp
    obtain ⟨⟨d, v⟩, hdv, rfl⟩ := List.mem_map.mp hp
    obtain ⟨ht, hv⟩ := (mem_docScores_iff M hnd hlen).mp hdv
    exact ⟨ht, hv, rfl⟩
  · intro ⟨ht, hdot, hsq⟩
    obtain ⟨d, v, s⟩ := p
    refine List.mem_map.mpr ⟨(d, v), (mem_docScores_iff M hnd hlen).mpr ⟨ht, hdot⟩, ?_⟩
    simp only at hsq
    rw [hsq]

lemma scored_pos_parts (M : List (List ℚ)) {terms : List String} {q : List ℚ}
    (hnd : terms.Nodup) (hlen : q.length = terms.length) {p : ℕ × ℚ × ℚ}
    (hp : p ∈ scoredDocs M q terms (build_inverted_index_rse M terms)) :
    0 < p.2.2 ∧ 0 < qNormSq q := by
  obtain ⟨ht, _, hsq⟩ := (mem_scoredDocs_iff M hnd hlen).mp hp
  obtain ⟨j, hj, hq0, hent⟩ := (touchedB_iff p.1 q 0).mp ht
  rw [Nat.zero_add] at hent
  constructor
  · rw [hsq]
    exact rowNormSq_pos_of_entry hent
  · exact qNormSq_pos_of_getD hj (ne_of_gt hq0)

lemma sorted_realScore_pairwise (M : List (List ℚ)) {terms : List String}
    {q : List ℚ} (hnd : terms.Nodup) (hlen : q.length = terms.length) :
    ((scoredDocs M q terms (build_inverted_index_rse M terms)).mergeSort
        rankLe).Pairwise
      (fun a b => realScore (qNormSq q) b ≤ realScore (qNormSq q) a) := by
  have hsorted := List.sorted_mergeSort rankLe_trans rankLe_total
    (scoredDocs M q terms (build_inverted_index_rse M terms))
  refine hsorted.imp_of_mem ?_
  intro a b ha hb hab
  rw [List.mem_mergeSort] at ha hb
  obtain ⟨hpa, hqs⟩ := scored_pos_parts M hnd hlen ha
  obtain ⟨hpb, -⟩ := scored_pos_parts M hnd hlen hb
  rw [rankLe, decide_eq_true_eq] at hab
  rw [realScore, realScore]
  exact (scoreKey_le_iff hqs hpb hpa).mp hab

lemma scored_length_eq (M : List (List ℚ)) {terms : List String} {q : List ℚ}
    (hM : ∀ row ∈ M, ∀ v ∈ row, 0 ≤ v) (hq : ∀ v ∈ q, 0 ≤ v)
    (hnd : terms.Nodup) (hlen : q.length = terms.length) :
    (scoredDocs M q terms (build_inverted_index_rse M terms)).length =
      ((Finset.range M.length).filter
        (fun d => denseDot q (M.getD d []) ≠ 0)).card := by
  have hkeys := docScores_fst_nodup q terms (build_inverted_index_rse M terms)
  have hlen1 : (scoredDocs M q terms (build_inverted_index_rse M terms)).length =
      ((docScores q terms (build_inverted_index_rse M terms)).map Prod.fst).length := by
    rw [scoredDocs, List.length_map, List.length_map]
  rw [hlen1, ← List.toFinset_card_of_nodup hkeys]
  congr 1
  apply Finset.ext
  intro d
  rw [List.mem_toFinset, fst_mem_docScores_iff M hnd hlen d, Finset.mem_filter,
    Finset.mem_range]
  constructor
  · intro ht
    obtain ⟨j, hj, hq0, hent⟩ := (touchedB_iff d q 0).mp ht
    rw [Nat.zero_add] at hent
    refine ⟨lt_of_entryAt_ne_zero hent, ?_⟩
    rw [← tailDot_zero_eq_denseDot M d hq]
    exact ne_of_gt (tailDot_pos hM d q 0 ht)
  · rintro ⟨hd, hne⟩
    by_contra hnt
    rw [Bool.not_eq_true] at hnt
    exact hne (by
      rw [← tailDot_zero_eq_denseDot M d hq, tailDot_eq_zero_of_not_touched d q 0 hnt])

/-- C2: ranked search returns `min k n` results, where `n` is the number of
documents with nonzero dense dot product against the query (hence never more
than `k`, and exactly `n` when `n < k`); the results are sorted by
non-increasing real cosine score; and every returned document shares at least
one strictly-positive-weight query term with the query (documents touched by
no query term never appear). -/
theorem rank_search_topk (M : List (List ℚ)) (q : List ℚ) (terms : List String)
    (k : ℕ) (hM : ∀ row ∈ M, ∀ v ∈ row, 0 ≤ v) (hq : ∀ v ∈ q, 0 ≤ v)
    (hnd : terms.Nodup) (hlen : q.length = terms.length) :
    (rank_restaurants_by_query_similarity M q terms
        (build_inverted_index_rse M terms) k).length =
      min k ((Finset.range M.length).filter
        (fun d => denseDot q (M.getD d []) ≠ 0)).card ∧
      (rank_restaurants_by_query_similarity M q terms
          (build_inverted_index_rse M terms) k).Pairwise
        (fun a b => realScore (qNormSq q) b ≤ realScore (qNormSq q) a) ∧
      ∀ p ∈ rank_restaurants_by_query_similarity M q terms
          (build_inverted_index_rse M terms) k,
        ∃ j, j < q.length ∧ 0 < q.getD j 0 ∧ entryAt M p.1 j ≠ 0 := by
  refine ⟨?_, ?_, ?_⟩
  · rw [rank_restaurants_by_query_similarity, List.length_take,
      List.length_mergeSort, scored_length_eq M hM hq hnd hlen]
  · exact List.Pairwise.sublist (List.take_sublist _ _)
      (sorted_realScore_pairwise M hnd hlen)
  · intro p hp
    rw [rank_restaurants_by_query_similarity] at hp
    have hpm : p ∈ scoredDocs M q terms (build_inverted_index_rse M terms) :=
      List.mem_mergeSort.mp ((List.take_sublist _ _).subset hp)
    obtain ⟨ht, -, -⟩ := (mem_scoredDocs_iff M hnd hlen).mp hpm
    obtain ⟨j, hj, h0, he⟩ := (touchedB_iff p.1 q 0).mp ht
    rw [Nat.zero_add] at he
    exact ⟨j, hj, h0, he⟩

/-- C2 witness: the top-k theorem at a concrete matrix, query and term
list. -/
theorem rank_search_topk_witness :
    (rank_restaurants_by_query_similarity [[1, 0], [0, 2]] [1, 1] ["aa", "bb"]
        (build_inverted_index_rse [[1, 0], [0, 2]] ["aa", "bb"]) 5).length =
      min 5 ((Finset.range ([[(1 : ℚ), 0], [0, 2]] : List (List ℚ)).length).filter
        (fun d => denseDot [1, 1] (([[(1 : ℚ), 0], [0, 2]] : List (List ℚ)).getD d []) ≠ 0)).card ∧
      (rank_restaurants_by_query_similarity [[1, 0], [0, 2]] [1, 1] ["aa", "bb"]
          (build_inverted_index_rse [[1, 0], [0, 2]] ["aa", "bb"]) 5).Pairwise
        (fun a b => realScore (qNormSq [1, 1]) b ≤ realScore (qNormSq [1, 1]) a) ∧
      ∀ p ∈ rank_restaurants_by_query_similarity [[1, 0], [0, 2]] [1, 1]
          ["aa", "bb"] (build_inverted_index_rse [[1, 0], [0, 2]] ["aa", "bb"]) 5,
        ∃ j, j < ([1, 1] : List ℚ).length ∧ 0 < ([1, 1] : List ℚ).getD j 0 ∧
          entryAt [[1, 0], [0, 2]] p.1 j ≠ 0 :=
  rank_search_topk [[1, 0], [0, 2]] [1, 1] ["aa", "bb"] 5 (by decide) (by decide)
    (by decide) (by decide)

/-- C3: the score attached to every returned document is the cosine
similarity `dot / (‖query‖₂ × ‖doc‖₂)` of the spec, where the dot product
accumulated by walking the postings lists equals the dense dot product of
the query weight vector with the document's full weight row: the sparse
index-based computation refines the naive dense one. -/
theorem rank_scores_are_cosine (M : List (List ℚ)) (q : List ℚ)
    (terms : List String) (k : ℕ) (hq : ∀ v ∈ q, 0 ≤ v) (hnd : terms.Nodup)
    (hlen : q.length = terms.length) :
    ∀ p ∈ rank_restaurants_by_query_similarity M q terms
        (build_inverted_index_rse M terms) k,
      p.2.1 = denseDot q (M.getD p.1 []) ∧
        p.2.2 = rowSumSq (M.getD p.1 []) ∧
        realScore (qNormSq q) p = specCosine q (M.getD p.1 []) := by
  intro p hp
  rw [rank_restaurants_by_query_similarity] at hp
  have hpm : p ∈ scoredDocs M q terms (build_inverted_index_rse M terms) :=
    List.mem_mergeSort.mp ((List.take_sublist _ _).subset hp)
  obtain ⟨ht, hdot, hsq⟩ := (mem_scoredDocs_iff M hnd hlen).mp hpm
  have h1 : p.2.1 = denseDot q (M.getD p.1 []) := by
    rw [hdot, tailDot_zero_eq_denseDot M p.1 hq]
  have h2 : p.2.2 = rowSumSq (M.getD p.1 []) := hsq
  refine ⟨h1, h2, ?_⟩
  rw [realScore, specCosine, h1, h2]

/-- A two-element list already sorted for `rankLe` is left unchanged by the
stable merge sort. -/
lemma mergeSort_pair_of_rankLe {x y : ℕ × ℚ × ℚ} (h : rankLe x y = true) :
    [x, y].mergeSort rankLe = [x, y] := by
  have hsub : [x, y].Sublist ([x, y].mergeSort rankLe) :=
    List.sublist_mergeSort rankLe_trans rankLe_total
      (List.pairwise_cons.mpr
        ⟨fun b hb => by
          rw [List.mem_singleton] at hb
          rw [hb]
          exact h,
          List.pairwise_singleton _ _⟩)
      (List.Sublist.refl _)
  exact (hsub.eq_of_length (by rw [List.length_mergeSort])).symm

/-- Concrete evaluation of the ranked search on a one-term corpus with two
identical documents: both tie with cosine score 1 and are returned in
first-touch order. -/
lemma rank_output_pair_example :
    rank_restaurants_by_query_similarity [[1], [1]] [1] ["aa"]
      (build_inverted_index_rse [[1], [1]] ["aa"]) 5 =
      [(0, 1, 1), (1, 1, 1)] := by
  have h1 : ([[1], [1]] : List (List ℚ))[1] = [1] := rfl
  have h0 : ([[1], [1]] : List (List ℚ))[0] = [1] := rfl
  have hscored : scoredDocs [[1], [1]] [1] ["aa"]
      (build_inverted_index_rse [[1], [1]] ["aa"]) = [(0, 1, 1), (1, 1, 1)] := by
    norm_num [scoredDocs, docScores, docScoresAux, lookupIdxRse,
      build_inverted_index_rse, colPostings, accumPostings, addScore, rowNormSq,
      rowSumSq, entryAt, List.enum, List.enumFrom, List.find?,
      List.filterMap_cons, h0, h1]
  have hle : rankLe ((0 : ℕ), (1 : ℚ), (1 : ℚ)) (1, 1, 1) = true := by
    norm_num [rankLe, scoreKey]
  rw [rank_restaurants_by_query_similarity, hscored, mergeSort_pair_of_rankLe hle]
  rfl

/-- C3 witness: the refinement theorem instantiated at a concrete matrix,
query and term list, evaluated at the concrete returned document `0`. -/
theorem rank_scores_are_cosine_witness :
    ((0 : ℕ), (1 : ℚ), (1 : ℚ)) ∈ rank_restaurants_by_query_similarity
        [[1], [1]] [1] ["aa"] (build_inverted_index_rse [[1], [1]] ["aa"]) 5 ∧
      (((0 : ℕ), (1 : ℚ), (1 : ℚ)).2.1 =
          denseDot [1] (([[1], [1]] : List (List ℚ)).getD 0 []) ∧
        ((0 : ℕ), (1 : ℚ), (1 : ℚ)).2.2 =
          rowSumSq (([[1], [1]] : List (List ℚ)).getD 0 []) ∧
        realScore (qNormSq [1]) ((0 : ℕ), (1 : ℚ), (1 : ℚ)) =
          specCosine [1] (([[1], [1]] : List (List ℚ)).getD 0 [])) :=
  have hmem : ((0 : ℕ), (1 : ℚ), (1 : ℚ)) ∈ rank_restaurants_by_query_similarity
      [[1], [1]] [1] ["aa"] (build_inverted_index_rse [[1], [1]] ["aa"]) 5 := by
    rw [rank_output_pair_example]
    exact List.mem_cons_self _ _
  ⟨hmem, rank_scores_are_cosine [[1], [1]] [1] ["aa"] 5 (by decide) (by decide)
    (by decide) _ hmem⟩

/-- C8: ranked scoring never divides by zero — every document in the
`doc_scores` map has a strictly positive accumulated dot product, a strictly
positive squared document norm and a strictly positive squared query norm —
and an all-zero query weight vector yields the empty result list without any
division being reached. -/
theorem rank_scoring_denominators_positive (M : List (List ℚ)) (q : List ℚ)
    (terms : List String) (k : ℕ) (hM : ∀ row ∈ M, ∀ v ∈ row, 0 ≤ v)
    (hnd : terms.Nodup) (hlen : q.length = terms.length) :
    (∀ p ∈ docScores q terms (build_inverted_index_rse M terms),
        0 < p.2 ∧ 0 < rowNormSq M p.1 ∧ 0 < qNormSq q) ∧
      ((∀ v ∈ q, v = 0) →
        rank_restaurants_by_query_similarity M q terms
          (build_inverted_index_rse M terms) k = []) := by
  constructor
  · intro p hp
    obtain ⟨d, v⟩ := p
    obtain ⟨ht, hv⟩ := (mem_docScores_iff M hnd hlen).mp hp
    obtain ⟨j, hj, h0, he⟩ := (touchedB_iff d q 0).mp ht
    rw [Nat.zero_add] at he
    refine ⟨?_, rowNormSq_pos_of_entry he, qNormSq_pos_of_getD hj (ne_of_gt h0)⟩
    show 0 < v
    rw [hv]
    exact tailDot_pos hM d q 0 ht
  · intro h0
    have hds : docScores q terms (build_inverted_index_rse M terms) = [] :=
      docScoresAux_all_zero terms _ q 0 [] h0
    rw [rank_restaurants_by_query_similarity, scoredDocs, hds]
    simp

/-- C8 witness: positivity of all denominators at a concrete instance, and
the empty result for the all-zero query. -/
theorem rank_scoring_denominators_positive_witness :
    ((∀ p ∈ docScores [1, 1] ["aa", "bb"]
          (build_inverted_index_rse [[1, 0], [0, 2]] ["aa", "bb"]),
        0 < p.2 ∧ 0 < rowNormSq [[1, 0], [0, 2]] p.1 ∧ 0 < qNormSq [1, 1]) ∧
      ((∀ v ∈ ([1, 1] : List ℚ), v = 0) →
        rank_restaurants_by_query_similarity [[1, 0], [0, 2]] [1, 1] ["aa", "bb"]
          (build_inverted_index_rse [[1, 0], [0, 2]] ["aa", "bb"]) 5 = [])) ∧
      rank_restaurants_by_query_similarity [[1, 0], [0, 2]] [0, 0] ["aa", "bb"]
        (build_inverted_index_rse [[1, 0], [0, 2]] ["aa", "bb"]) 5 = [] :=
  ⟨rank_scoring_denominators_positive [[1, 0], [0, 2]] [1, 1] ["aa", "bb"] 5
      (by decide) (by decide) (by decide),
    (rank_scoring_denominators_positive [[1, 0], [0, 2]] [0, 0] ["aa", "bb"] 5
      (by decide) (by decide) (by decide)).2 (by decide)⟩

/-! ## Stability of the ranked ordering: equal scores keep first-touch order -/

lemma firstIdx_cons_self {α : Type} [DecidableEq α] (x : α) (l : List α) :
    firstIdx x (x :: l) = 0 := by
  simp [firstIdx]

lemma firstIdx_cons_ne {α : Type} [DecidableEq α] {x a : α} (l : List α)
    (h : x ≠ a) : firstIdx x (a :: l) = firstIdx x l + 1 := by
  simp [firstIdx, h]

lemma firstIdx_inj {α : Type} [DecidableEq α] {x y : α} :
    ∀ {l : List α}, x ∈ l → y ∈ l → firstIdx x l = firstIdx y l → x = y := by
  intro l
  induction l with
  | nil => intro hx _ _; exact absurd hx (List.not_mem_nil x)
  | cons a l ih =>
    intro hx hy h
    by_cases hxa : x = a
    · by_cases hya : y = a
      · rw [hxa, hya]
      · rw [hxa, firstIdx_cons_self, firstIdx_cons_ne l hya] at h
        exact absurd h.symm (Nat.succ_ne_zero _)
    · by_cases hya : y = a
      · rw [hya, firstIdx_cons_self, firstIdx_cons_ne l hxa] at h
        exact absurd h (Nat.succ_ne_zero _)
      · rw [firstIdx_cons_ne l hxa, firstIdx_cons_ne l hya] at h
        have hxl : x ∈ l := by
          rcases List.mem_cons.mp hx with hc | hc
          · exact absurd hc hxa
          · exact hc
        have hyl : y ∈ l := by
          rcases List.mem_cons.mp hy with hc | hc
          · exact absurd hc hya
          · exact hc
        exact ih hxl hyl (Nat.succ_injective h)

lemma pair_sublist_iff_firstIdx {α : Type} [DecidableEq α] {x y : α} :
    ∀ {l : List α}, l.Nodup → x ≠ y →
      ([x, y].Sublist l ↔ x ∈ l ∧ y ∈ l ∧ firstIdx x l < firstIdx y l) := by
  intro l
  induction l with
  | nil => intro _ _; simp
  | cons a l ih =>
    intro hnd hxy
    rw [List.nodup_cons] at hnd
    by_cases hxa : x = a
    · subst hxa
      constructor
      · intro hs
        rcases List.sublist_cons_iff.mp hs with hs | ⟨r, hr, hrs⟩
        · exact absurd (hs.subset (List.mem_cons_self _ _)) hnd.1
        · have hry : r = [y] := by
            rw [List.cons.injEq] at hr
            exact hr.2.symm
          rw [hry] at hrs
          have hyl : y ∈ l := List.singleton_sublist.mp hrs
          refine ⟨List.mem_cons_self _ _, List.mem_cons_of_mem _ hyl, ?_⟩
          rw [firstIdx_cons_self, firstIdx_cons_ne l (Ne.symm hxy)]
          exact Nat.succ_pos _
      · rintro ⟨-, hy, -⟩
        have hyl : y ∈ l := by
          rcases List.mem_cons.mp hy with h | h
          · exact absurd h.symm hxy
          · exact h
        exact List.cons_sublist_cons.mpr (List.singleton_sublist.mpr hyl)
    · by_cases hya : y = a
      · subst hya
        constructor
        · intro hs
          rcases List.sublist_cons_iff.mp hs with hs | ⟨r, hr, -⟩
          · have hyl : y ∈ l :=
              hs.subset (List.mem_cons_of_mem _ (List.mem_cons_self _ _))
            exact absurd hyl hnd.1
          · refine absurd ?_ hxa
            rw [List.cons.injEq] at hr
            exact hr.1
        · rintro ⟨-, -, hlt⟩
          rw [firstIdx_cons_self] at hlt
          exact absurd hlt (Nat.not_lt_zero _)
      · rw [List.sublist_cons_iff]
        constructor
        · rintro (hs | ⟨r, hr, -⟩)
          · obtain ⟨h1, h2, h3⟩ := (ih hnd.2 hxy).mp hs
            refine ⟨List.mem_cons_of_mem _ h1, List.mem_cons_of_mem _ h2, ?_⟩
            rw [firstIdx_cons_ne l hxa, firstIdx_cons_ne l hya]
            exact Nat.succ_lt_succ h3
          · refine absurd ?_ hxa
            rw [List.cons.injEq] at hr
            exact hr.1
        · rintro ⟨hx, hy, hlt⟩
          left
          have hxl : x ∈ l := by
            rcases List.mem_cons.mp hx with h | h
            · exact absurd h hxa
            · exact h
          have hyl : y ∈ l := by
            rcases List.mem_cons.mp hy with h | h
            · exact absurd h hya
            · exact h
          rw [firstIdx_cons_ne l hxa, firstIdx_cons_ne l hya] at hlt
          exact (ih hnd.2 hxy).mpr ⟨hxl, hyl, Nat.lt_of_succ_lt_succ hlt⟩

lemma firstIdx_take {α : Type} [DecidableEq α] :
    ∀ (l : List α) (k : ℕ) (x : α), x ∈ l.take k →
      firstIdx x (l.take k) = firstIdx x l := by
  intro l
  induction l with
  | nil =>
    intro k x hx
    rw [List.take_nil] at hx
    exact absurd hx (List.not_mem_nil x)
  | cons a l ih =>
    intro k x hx
    cases k with
    | zero => exact absurd hx (List.not_mem_nil x)
    | succ k =>
      rw [List.take_succ_cons] at hx ⊢
      by_cases hxa : x = a
      · subst hxa
        rw [firstIdx_cons_self, firstIdx_cons_self]
      · have hmem : x ∈ l.take k := by
          rcases List.mem_cons.mp hx with h | h
          · exact absurd h hxa
          · exact h
        rw [firstIdx_cons_ne _ hxa, firstIdx_cons_ne _ hxa, ih k x hmem]

lemma scoredDocs_fst_eq (M : List (List ℚ)) (q : List ℚ) (terms : List String)
    (idx : List (String × List (ℕ × ℚ))) :
    (scoredDocs M q terms idx).map Prod.fst =
      (docScores q terms idx).map Prod.fst := by
  rw [scoredDocs, List.map_map]
  rfl

lemma scoredDocs_nodup (M : List (List ℚ)) (q : List ℚ) (terms : List String)
    (idx : List (String × List (ℕ × ℚ))) : (scoredDocs M q terms idx).Nodup :=
  List.Nodup.of_map Prod.fst
    (by rw [scoredDocs_fst_eq]; exact docScores_fst_nodup q terms idx)

/-- C9: the ranked result order is reproducible down to ties.  The embedding
is a pure function, so two runs on the same matrix, query, term list and
index coincide definitionally; this theorem settles the tie-break: among
returned documents with EQUAL real cosine scores, the result order agrees
exactly with the order in which the accumulation loop first touched them
(the insertion order of `doc_scores`, i.e. `scoredDocs`) — a stable
descending sort, as Python's `sorted` guarantees. -/
theorem rank_tie_break_is_first_touch_order (M : List (List ℚ)) (q : List ℚ)
    (terms : List String) (k : ℕ) (hnd : terms.Nodup)
    (hlen : q.length = terms.length) :
    ∀ x y,
      x ∈ rank_restaurants_by_query_similarity M q terms
        (build_inverted_index_rse M terms) k →
      y ∈ rank_restaurants_by_query_similarity M q terms
        (build_inverted_index_rse M terms) k →
      realScore (qNormSq q) x = realScore (qNormSq q) y → x.1 ≠ y.1 →
      (firstIdx x (rank_restaurants_by_query_similarity M q terms
            (build_inverted_index_rse M terms) k) <
          firstIdx y (rank_restaurants_by_query_similarity M q terms
            (build_inverted_index_rse M terms) k) ↔
        firstIdx x (scoredDocs M q terms (build_inverted_index_rse M terms)) <
          firstIdx y (scoredDocs M q terms (build_inverted_index_rse M terms))) := by
  intro x y hx hy hscore hne1
  have hxy : x ≠ y := fun h => hne1 (congrArg Prod.fst h)
  have hnodupS : (scoredDocs M q terms (build_inverted_index_rse M terms)).Nodup :=
    scoredDocs_nodup M q terms _
  have hperm := List.mergeSort_perm
    (scoredDocs M q terms (build_inverted_index_rse M terms)) rankLe
  have hnodupSorted :
      ((scoredDocs M q terms (build_inverted_index_rse M terms)).mergeSort
        rankLe).Nodup := hperm.nodup_iff.mpr hnodupS
  have hxS : x ∈ (scoredDocs M q terms (build_inverted_index_rse M terms)).mergeSort
      rankLe := (List.take_sublist _ _).subset hx
  have hyS : y ∈ (scoredDocs M q terms (build_inverted_index_rse M terms)).mergeSort
      rankLe := (List.take_sublist _ _).subset hy
  have hxSc : x ∈ scoredDocs M q terms (build_inverted_index_rse M terms) :=
    hperm.mem_iff.mp hxS
  have hySc : y ∈ scoredDocs M q terms (build_inverted_index_rse M terms) :=
    hperm.mem_iff.mp hyS
  obtain ⟨hpx, hqns⟩ := scored_pos_parts M hnd hlen hxSc
  obtain ⟨hpy, -⟩ := scored_pos_parts M hnd hlen hySc
  have hscore' : (x.2.1 : ℝ) / (Real.sqrt (qNormSq q : ℝ) * Real.sqrt (x.2.2 : ℝ)) =
      (y.2.1 : ℝ) / (Real.sqrt (qNormSq q : ℝ) * Real.sqrt (y.2.2 : ℝ)) := by
    rw [realScore, realScore] at hscore
    exact hscore
  have hlexy : rankLe x y = true := by
    rw [rankLe, decide_eq_true_eq, scoreKey_le_iff hqns hpy hpx]
    exact le_of_eq hscore'.symm
  have hleyx : rankLe y x = true := by
    rw [rankLe, decide_eq_true_eq, scoreKey_le_iff hqns hpx hpy]
    exact le_of_eq hscore'
  have stab : ∀ u v : ℕ × ℚ × ℚ, rankLe u v = true →
      [u, v].Sublist (scoredDocs M q terms (build_inverted_index_rse M terms)) →
      [u, v].Sublist
        ((scoredDocs M q terms (build_inverted_index_rse M terms)).mergeSort
          rankLe) := by
    intro u v h1 hs
    refine List.sublist_mergeSort rankLe_trans rankLe_total ?_ hs
    refine List.pairwise_cons.mpr ⟨?_, List.pairwise_singleton _ _⟩
    intro b hb
    rw [List.mem_singleton] at hb
    rw [hb]
    exact h1
  have hix : firstIdx x (rank_restaurants_by_query_similarity M q terms
      (build_inverted_index_rse M terms) k) =
        firstIdx x ((scoredDocs M q terms
          (build_inverted_index_rse M terms)).mergeSort rankLe) :=
    firstIdx_take _ k x hx
  have hiy : firstIdx y (rank_restaurants_by_query_similarity M q terms
      (build_inverted_index_rse M terms) k) =
        firstIdx y ((scoredDocs M q terms
          (build_inverted_index_rse M terms)).mergeSort rankLe) :=
    firstIdx_take _ k y hy
  rw [hix, hiy]
  constructor
  · intro hlt
    by_contra hnlt
    have hne2 : firstIdx y (scoredDocs M q terms
        (build_inverted_index_rse M terms)) ≠
          firstIdx x (scoredDocs M q terms (build_inverted_index_rse M terms)) :=
      fun h => hxy (firstIdx_inj hySc hxSc h).symm
    have hylt : firstIdx y (scoredDocs M q terms
        (build_inverted_index_rse M terms)) <
          firstIdx x (scoredDocs M q terms (build_inverted_index_rse M terms)) :=
      lt_of_le_of_ne (not_lt.mp hnlt) hne2
    have hpair2 : [y, x].Sublist (scoredDocs M q terms
        (build_inverted_index_rse M terms)) :=
      (pair_sublist_iff_firstIdx hnodupS (Ne.symm hxy)).mpr ⟨hySc, hxSc, hylt⟩
    have hsorted2 := stab y x hleyx hpair2
    have hcontra :=
      ((pair_sublist_iff_firstIdx hnodupSorted (Ne.symm hxy)).mp hsorted2).2.2
    omega
  · intro hlt
    have hpair : [x, y].Sublist (scoredDocs M q terms
        (build_inverted_index_rse M terms)) :=
      (pair_sublist_iff_firstIdx hnodupS hxy).mpr ⟨hxSc, hySc, hlt⟩
    exact ((pair_sublist_iff_firstIdx hnodupSorted hxy).mp
      (stab x y hlexy hpair)).2.2

/-- C9 witness: the tie-break theorem instantiated at the concrete two-way
tie of `rank_output_pair_example`: documents `0` and `1` have equal cosine
score and keep their first-touch order. -/
theorem rank_tie_break_is_first_touch_order_witness :
    ((0 : ℕ), (1 : ℚ), (1 : ℚ)) ∈ rank_restaurants_by_query_similarity
        [[1], [1]] [1] ["aa"] (build_inverted_index_rse [[1], [1]] ["aa"]) 5 ∧
      ((1 : ℕ), (1 : ℚ), (1 : ℚ)) ∈ rank_restaurants_by_query_similarity
        [[1], [1]] [1] ["aa"] (build_inverted_index_rse [[1], [1]] ["aa"]) 5 ∧
      (firstIdx ((0 : ℕ), (1 : ℚ), (1 : ℚ))
          (rank_restaurants_by_query_similarity [[1], [1]] [1] ["aa"]
            (build_inverted_index_rse [[1], [1]] ["aa"]) 5) <
          firstIdx ((1 : ℕ), (1 : ℚ), (1 : ℚ))
            (rank_restaurants_by_query_similarity [[1], [1]] [1] ["aa"]
              (build_inverted_index_rse [[1], [1]] ["aa"]) 5) ↔
        firstIdx ((0 : ℕ), (1 : ℚ), (1 : ℚ))
            (scoredDocs [[1], [1]] [1] ["aa"]
              (build_inverted_index_rse [[1], [1]] ["aa"])) <
          firstIdx ((1 : ℕ), (1 : ℚ), (1 : ℚ))
            (scoredDocs [[1], [1]] [1] ["aa"]
              (build_inverted_index_rse [[1], [1]] ["aa"]))) :=
  have hx : ((0 : ℕ), (1 : ℚ), (1 : ℚ)) ∈ rank_restaurants_by_query_similarity
      [[1], [1]] [1] ["aa"] (build_inverted_index_rse [[1], [1]] ["aa"]) 5 := by
    rw [rank_output_pair_example]
    exact List.mem_cons_self _ _
  have hy : ((1 : ℕ), (1 : ℚ), (1 : ℚ)) ∈ rank_restaurants_by_query_similarity
      [[1], [1]] [1] ["aa"] (build_inverted_index_rse [[1], [1]] ["aa"]) 5 := by
    rw [rank_output_pair_example]
    exact List.mem_cons_of_mem _ (List.mem_cons_self _ _)
  ⟨hx, hy,
    rank_tie_break_is_first_touch_order [[1], [1]] [1] ["aa"] 5 (by decide)
      (by decide) ((0 : ℕ), (1 : ℚ), (1 : ℚ)) ((1 : ℕ), (1 : ℚ), (1 : ℚ)) hx hy
      rfl (by decide)⟩
